import Mathlib

/-!
# Household-ledger reconciliation pipeline: `wechat-processor.js`

A shallow embedding of the single source file of the repository and the
properties its specification states about it.

Conventions of the embedding.

* JavaScript strings are Lean strings; the string builtins the source calls
  (`trim`, `replace`, `includes`, `startsWith`, `endsWith`, `match` on the one
  regular expression of the source) are written out over `List Char`.
* JavaScript numbers are `JsNum`: `NaN`, the two infinities, or a finite value
  held as an exact rational.  Binary rounding of IEEE doubles is not modelled
  and no theorem below depends on it.
* A thrown exception is the `error` side of `Except Err`.
* The run is a function from the `World` it reads (directory listing, rules
  file, ledger file, export files, the host's date rendering) to the trace of
  externally visible steps it performs and its final result.
-/

namespace WechatProcessor

/-! ## JavaScript values -/

/-- A JavaScript number. Finite values are exact rationals. -/
inductive JsNum where
  | nan
  | inf (neg : Bool)
  | fin (q : ℚ)
  deriving DecidableEq

/-- A JavaScript value as it occurs in the field of a row: a missing property,
a string, or a number. -/
inductive JsVal where
  | undefined
  | str (s : String)
  | num (n : JsNum)
  deriving DecidableEq

/-- The exceptions the run can end in. -/
inductive Err where
  /-- The error `No main ledger file found starting with ...` (line 73). -/
  | noLedger
  /-- The error `Multiple ledger files found. ...` (line 76). -/
  | multipleLedgers
  /-- The call `JSON.parse(fs.readFileSync(RULES_FILE))` threw (line 81). -/
  | rulesUnreadable
  /-- A `TypeError`: a method called on `undefined` or on a non-string. -/
  | typeError
  deriving DecidableEq

deriving instance DecidableEq for Except

/-- JavaScript truthiness (`ToBoolean`). -/
def truthy : JsVal → Bool
  | .undefined => false
  | .str s => decide (s ≠ "")
  | .num .nan => false
  | .num (.inf _) => true
  | .num (.fin q) => decide (q ≠ 0)

/-- The operator `a || b`. -/
def jsOr (a b : JsVal) : JsVal := if truthy a then a else b

/-- The relation `x >= 0` on numbers (false for `NaN`). -/
def JsNum.nonneg : JsNum → Prop
  | .nan => False
  | .inf neg => neg = false
  | .fin q => 0 ≤ q

instance (x : JsNum) : Decidable x.nonneg := by
  cases x <;> unfold JsNum.nonneg <;> infer_instance

/-- The builtin `Math.abs`. -/
def jsAbs : JsNum → JsNum
  | .nan => .nan
  | .inf _ => .inf false
  | .fin q => .fin |q|

/-! ## String builtins -/

/-- ECMAScript `LineTerminator`: LF, CR, LS, PS. -/
def isLineTerminator (c : Char) : Bool :=
  c.val = 0x000A || c.val = 0x000D || c.val = 0x2028 || c.val = 0x2029

/-- ECMAScript `WhiteSpace` or `LineTerminator`: what `trim` strips and what
`parseFloat` skips in front. -/
def isJsSpace (c : Char) : Bool :=
  c.val = 0x0009 || c.val = 0x000B || c.val = 0x000C || c.val = 0x0020 ||
  c.val = 0x00A0 || c.val = 0x1680 || (0x2000 ≤ c.val && c.val ≤ 0x200A) ||
  c.val = 0x202F || c.val = 0x205F || c.val = 0x3000 || c.val = 0xFEFF ||
  isLineTerminator c

/-- Drop the trailing characters satisfying `p`. -/
def dropEndWhile (p : Char → Bool) : List Char → List Char
  | [] => []
  | c :: cs =>
    match dropEndWhile p cs with
    | [] => if p c then [] else [c]
    | r => c :: r

/-- The builtin `String.prototype.trim` on the characters of a string. -/
def trimChars (l : List Char) : List Char :=
  dropEndWhile isJsSpace (l.dropWhile isJsSpace)

/-- The builtin `String.prototype.trim`. -/
def jsTrim (s : String) : String := ⟨trimChars s.data⟩

/-- The call `s.replace(pat, rep)` with a string pattern: the first occurrence only. -/
def replaceFirstChars (pat rep : List Char) : List Char → List Char
  | [] => if pat = [] then rep else []
  | c :: cs =>
    if pat.isPrefixOf (c :: cs) then rep ++ (c :: cs).drop pat.length
    else c :: replaceFirstChars pat rep cs

/-- The call `s.replace(pat, rep)` with a string pattern. -/
def jsReplace (s pat rep : String) : String :=
  ⟨replaceFirstChars pat.data rep.data s.data⟩

/-- The call `s.replace(/年|月/g, '-')`: every `年` and every `月` becomes `-`. -/
def replaceYearMonth (s : String) : String :=
  ⟨s.data.map fun c => if c = '年' ∨ c = '月' then '-' else c⟩

/-- The call `s.includes(k)` on character lists: `k` occurs at some position of `s`. -/
def includesChars (k : List Char) : List Char → Bool
  | [] => k.isEmpty
  | c :: cs => k.isPrefixOf (c :: cs) || includesChars k cs

/-- The call `f.startsWith(p)`. -/
def jsStartsWith (f p : String) : Bool := p.data.isPrefixOf f.data

/-- The call `f.endsWith(p)`. -/
def jsEndsWith (f p : String) : Bool := p.data.isSuffixOf f.data

/-! ## Number builtins -/

/-- Value of a list of decimal digits. -/
def digitsVal (l : List Char) : Nat :=
  l.foldl (fun n c => 10 * n + (c.toNat - '0'.toNat)) 0

/-- The rational `m * 10 ^ e`. -/
def scale10 (m : Nat) (e : Int) : ℚ :=
  if 0 ≤ e then ((m * 10 ^ e.toNat : Nat) : ℚ) else (m : ℚ) / ((10 ^ (-e).toNat : Nat) : ℚ)

/-- The `ExponentPart` of a `StrDecimalLiteral`, when one is present and
well formed; `0` otherwise (the literal then ends before it). -/
def exponentPart : List Char → Int
  | c :: r =>
    if c = 'e' ∨ c = 'E' then
      match r with
      | '-' :: d => if (d.takeWhile Char.isDigit).isEmpty then 0
                    else - (digitsVal (d.takeWhile Char.isDigit) : Int)
      | '+' :: d => (digitsVal (d.takeWhile Char.isDigit) : Int)
      | d => (digitsVal (d.takeWhile Char.isDigit) : Int)
    else 0
  | [] => 0

/-- The unsigned part of a `StrDecimalLiteral`: `Infinity`, or digits with an
optional fraction and exponent. The longest such front part of the input is
read; `NaN` when there is none. -/
def parseUnsigned (neg : Bool) (u : List Char) : JsNum :=
  if "Infinity".data.isPrefixOf u then .inf neg
  else
    let ip := u.takeWhile Char.isDigit
    let r1 := u.dropWhile Char.isDigit
    let fp := match r1 with
      | '.' :: r => r.takeWhile Char.isDigit
      | _ => []
    let r2 := match r1 with
      | '.' :: r => r.dropWhile Char.isDigit
      | _ => r1
    if ip.isEmpty && fp.isEmpty then .nan
    else
      let v := scale10 (digitsVal (ip ++ fp)) (exponentPart r2 - fp.length)
      .fin (if neg then -v else v)

/-- The builtin `parseFloat` on the characters of a string. -/
def parseFloatChars (s : List Char) : JsNum :=
  match s.dropWhile isJsSpace with
  | '-' :: u => parseUnsigned true u
  | '+' :: u => parseUnsigned false u
  | u => parseUnsigned false u

/-- The call `parseFloat(v)`: the argument is converted to a string and its longest
numeric front part is read. For a number argument the conversion to a string
and back returns the number. -/
def parseFloat : JsVal → JsNum
  | .undefined => .nan
  | .str s => parseFloatChars s.data
  | .num n => n

/-- Two decimal digits of a number below 100. -/
def pad2 (n : Nat) : String :=
  if n < 10 then "0" ++ Nat.repr n else Nat.repr n

/-- Drop trailing `0` characters. -/
def stripZeros (l : List Char) : List Char := dropEndWhile (fun c => c = '0') l

/-- Exponential rendering `d.ddde+n` of a natural number of at least 22
digits, as `Number::toString` prints values from `1e21` on (with the exact
decimal digits of the modelled value). -/
def expForm (n : Nat) : String :=
  let ds := Nat.toDigits 10 n
  let e := ds.length - 1
  match stripZeros ds with
  | [] => "0"
  | [d] => ⟨[d]⟩ ++ "e+" ++ Nat.repr e
  | d :: rest => ⟨d :: '.' :: rest⟩ ++ "e+" ++ Nat.repr e

/-- The call `x.toFixed(2)`. -/
def toFixed2 : JsNum → String
  | .nan => "NaN"
  | .inf neg => if neg then "-Infinity" else "Infinity"
  | .fin q =>
    let x := |q|
    let sign := if q < 0 then "-" else ""
    if (10 : ℚ) ^ 21 ≤ x then sign ++ expForm ⌊x⌋.toNat
    else
      let n := ⌊x * 100 + 1 / 2⌋.toNat
      sign ++ Nat.repr (n / 100) ++ "." ++ pad2 (n % 100)

/-! ## Helper functions of the source (lines 23–34) -/

/-- The match of `/^(.*?)(?:\(|（|$)/` on a string: the capture group, or
`none` when the expression does not match. The lazy `.*?` stops at the first
`(` or `（` or at the end of the input; `.` does not match a line terminator,
and without the `m` flag `$` only matches at the end of the input. -/
def matchBeforeParen : List Char → Option (List Char)
  | [] => some []
  | c :: cs =>
    if c = '(' ∨ c = '（' then some []
    else if isLineTerminator c then none
    else (matchBeforeParen cs).map (c :: ·)

/-- The function `getMerchantKeyword` (lines 23–27). -/
def getMerchantKeyword (merchant : JsVal) : Except Err String :=
  if !truthy merchant then .ok ""
  else
    match merchant with
    | .str s =>
      match matchBeforeParen s.data with
      | some g => .ok ⟨trimChars g⟩
      | none => .ok (jsTrim s)
    | _ => .error .typeError

/-- The function `createFingerprint` (lines 29–34). -/
def createFingerprint (date amount merchant : JsVal) : Except Err String :=
  match date with
  | .str d =>
    let cleanDate := jsReplace (replaceYearMonth d) "日" ""
    let cleanAmount := toFixed2 (jsAbs (parseFloat amount))
    match getMerchantKeyword merchant with
    | .ok merchantKeyword => .ok (cleanDate ++ "|" ++ cleanAmount ++ "|" ++ merchantKeyword)
    | .error e => .error e
  | _ => .error .typeError

/-! ## Data model -/

/-- A ledger record: the seven columns of the ledger file, in the order of the
`fields` list of line 152. `product` is `所购商品`, `quantity` is `数量`,
`purchaseDate` is `购买日期`, `amount` is `金额（元）`, `category` is `类别`,
`note` is `备注`, `platform` is `购物平台`. -/
structure Record where
  product : JsVal
  quantity : JsVal
  purchaseDate : JsVal
  amount : JsVal
  category : JsVal
  note : JsVal
  platform : JsVal
  deriving DecidableEq

/-- The `keyword` of a rule: one string or an array of strings. -/
inductive Keyword where
  | one (k : String)
  | many (ks : List String)
  deriving DecidableEq

/-- An entry of the rules file. -/
structure Rule where
  keyword : Keyword
  category : String
  product : String
  platform : Option String
  deriving DecidableEq

/-- A data row of an export file as the reader delivers it: its cells, to be
named by position with `weChatHeaders`. -/
abbrev Row := List String

/-- The column names of `readWeChatCsv` (lines 48–51). -/
def weChatHeaders : List String :=
  ["交易时间", "交易类型", "交易对方", "商品", "收/支",
   "金额(元)", "支付方式", "当前状态", "交易单号", "商户单号", "备注"]

/-- The property `row[key]` of an export row: the cell at the position of `key`
in `weChatHeaders`, `undefined` when the row is too short to have one. -/
def rowGet (row : Row) (key : String) : JsVal :=
  if key ∈ weChatHeaders then
    match row[weChatHeaders.indexOf key]? with
    | some s => .str s
    | none => .undefined
  else .undefined

/-- The constant `LEDGER_FILE_PREFIX` (line 12). -/
def LEDGER_FILE_PREFIX : String := "家庭账本"

/-! ## The ingestion loop (lines 99–133) -/

/-- The array `Array.isArray(rule.keyword) ? rule.keyword : [rule.keyword]` (line 121). -/
def keywordsOf (rule : Rule) : List String :=
  match rule.keyword with
  | .one k => [k]
  | .many ks => ks

/-- The call `merchant.includes(k)`; a `TypeError` when `merchant` is not a string. -/
def jsIncludes (merchant : JsVal) (k : String) : Except Err Bool :=
  match merchant with
  | .str m => .ok (includesChars k.data m.data)
  | _ => .error .typeError

/-- The test `keywords.some(k => merchant.includes(k))` (line 122). -/
def someIncludes (merchant : JsVal) : List String → Except Err Bool
  | [] => .ok false
  | k :: ks =>
    match jsIncludes merchant k with
    | .error e => .error e
    | .ok true => .ok true
    | .ok false => someIncludes merchant ks

/-- The rule loop of lines 120–128 on the record under construction. -/
def applyRules (merchant : JsVal) (newTx : Record) : List Rule → Except Err Record
  | [] => .ok newTx
  | rule :: rest =>
    match someIncludes merchant (keywordsOf rule) with
    | .error e => .error e
    | .ok true =>
      .ok { newTx with
            category := .str rule.category
            product := .str rule.product
            platform :=
              match rule.platform with
              | some p => if p ≠ "" then .str p else newTx.platform
              | none => newTx.platform }
    | .ok false => applyRules merchant newTx rest

/-- The set `existingFingerprints` (in insertion order) and the array
`newTransactions`. -/
structure IngestState where
  existingFingerprints : List String
  newTransactions : List Record
  deriving DecidableEq

/-- The builtin `Set.prototype.add`. -/
def setAdd (set : List String) (x : String) : List String :=
  if x ∈ set then set else set ++ [x]

/-- The filter of line 103: the row is looked at when it has a non-empty
`交易时间` and its `收/支` is `支出`. -/
def isExpense (row : Row) : Bool :=
  truthy (rowGet row "交易时间") && decide (rowGet row "收/支" = .str "支出")

/-- The record of lines 111–119, before the rules are applied. -/
def freshTx (row : Row) (date : String) (amount : JsNum) (merchant : JsVal) : Record :=
  { product := jsOr (rowGet row "商品") (.str "未知商品")
    quantity := .str ""
    purchaseDate := .str date
    amount := .num amount
    category := .str "待分类"
    note := merchant
    platform := .str "线下" }

/-- One pass of the body of the inner loop (lines 103–131). `longDate v` is
`new Date(v).toLocaleDateString('zh-CN', ...)` of the host. -/
def processRow (longDate : JsVal → String) (rules : List Rule) (st : IngestState)
    (row : Row) : Except Err IngestState :=
  if !isExpense row then .ok st
  else
    match rowGet row "金额(元)" with
    | .str a =>
      let amount := parseFloat (.str (jsReplace a "¥" ""))
      let date := longDate (rowGet row "交易时间")
      let merchant := rowGet row "交易对方"
      match createFingerprint (.str date) (.num amount) merchant with
      | .error e => .error e
      | .ok fingerprint =>
        if fingerprint ∈ st.existingFingerprints then .ok st
        else
          match applyRules merchant (freshTx row date amount merchant) rules with
          | .error e => .error e
          | .ok newTx =>
            .ok { existingFingerprints := setAdd st.existingFingerprints fingerprint
                  newTransactions := st.newTransactions ++ [newTx] }
    | _ => .error .typeError

/-- The inner loop over the rows of one export file (lines 102–132). -/
def processRows (longDate : JsVal → String) (rules : List Rule) :
    IngestState → List Row → Except Err IngestState
  | st, [] => .ok st
  | st, row :: rest =>
    match processRow longDate rules st row with
    | .error e => .error e
    | .ok st1 => processRows longDate rules st1 rest

/-- The seeding of `existingFingerprints` from the ledger (lines 84–89). -/
def seedFingerprints : List String → List Record → Except Err (List String)
  | set, [] => .ok set
  | set, row :: rest =>
    let merchantGuess := jsOr (jsOr row.note row.product) (.str "")
    match createFingerprint row.purchaseDate row.amount merchantGuess with
    | .error e => .error e
    | .ok fingerprint => seedFingerprints (setAdd set fingerprint) rest

/-! ## The date comparator and the sort (lines 142–150) -/

/-- Split a list at the first occurrence of `c`: what stands before it and
what stands after it. -/
def splitAtChar (c : Char) : List Char → Option (List Char × List Char)
  | [] => none
  | x :: xs =>
    if x = c then some ([], xs)
    else (splitAtChar c xs).map fun p => (x :: p.1, p.2)

/-- A non-empty run of at most `n` decimal digits. -/
def isNumeral (n : Nat) (l : List Char) : Bool :=
  !l.isEmpty && decide (l.length ≤ n) && l.all Char.isDigit

/-- Leap years of the proleptic Gregorian calendar. -/
def isLeap (y : Nat) : Bool :=
  y % 4 = 0 && (y % 100 ≠ 0 || y % 400 = 0)

/-- ECMAScript `DayFromYear`: the day number of 1 January of year `y`,
counted from 1 January 1970. -/
def dayFromYear (y : Nat) : Int :=
  365 * ((y : Int) - 1970) + ((y : Int) - 1969) / 4 - ((y : Int) - 1901) / 100
    + ((y : Int) - 1601) / 400

/-- Days of year `y` before month `m` (1 to 12). -/
def daysBeforeMonth (y m : Nat) : Nat :=
  (match m with
    | 1 => 0 | 2 => 31 | 3 => 59 | 4 => 90 | 5 => 120 | 6 => 151
    | 7 => 181 | 8 => 212 | 9 => 243 | 10 => 273 | 11 => 304 | _ => 334)
  + (if isLeap y && decide (2 < m) then 1 else 0)

/-- ECMAScript `MakeDay` on a year, a month (1 to 12) and a day of the month. -/
def makeDay (y m d : Nat) : Int :=
  dayFromYear y + (daysBeforeMonth y m : Int) + ((d : Int) - 1)

/-- The time value of `new Date(s)` for the strings the comparator builds,
`none` standing for `NaN` (an invalid date). The host is modelled on strings
`Y-M-D` with a four-digit year from 1000 on, a month from 1 to 12 and a day
from 1 to 31, each of month and day written with one or two digits, in a
process whose time zone is UTC; a day beyond the end of the month runs into
the next month as in `MakeDay`. Any other string is taken as unparseable: the
further, implementation-defined formats of the host are not modelled. -/
def dateValue (s : String) : Option Int :=
  match splitAtChar '-' s.data with
  | none => none
  | some (ys, r) =>
    match splitAtChar '-' r with
    | none => none
    | some (ms, ds) =>
      if ys.length = 4 && isNumeral 4 ys && decide (1000 ≤ digitsVal ys) &&
          isNumeral 2 ms && isNumeral 2 ds &&
          decide (1 ≤ digitsVal ms) && decide (digitsVal ms ≤ 12) &&
          decide (1 ≤ digitsVal ds) && decide (digitsVal ds ≤ 31) then
        some (makeDay (digitsVal ys) (digitsVal ms) (digitsVal ds) * 86400000)
      else none

/-- The argument of `new Date(...)` in lines 147–148:
`x.replace('年', '-').replace('月', '-').replace('日', '')`. -/
def dashed (d : String) : String :=
  jsReplace (jsReplace (jsReplace d "年" "-") "月" "-") "日" ""

/-- The time value the comparator computes for a record whose `购买日期` is a
string. -/
def dateKey (r : Record) : Option Int :=
  match r.purchaseDate with
  | .str d => dateValue (dashed d)
  | _ => none

/-- The comparator `dateA - dateB` of lines 145–150, `none` standing for `NaN`. -/
def compareDates (a b : Record) : Option Int :=
  match dateKey a, dateKey b with
  | some x, some y => some (x - y)
  | _, _ => none

/-- The order the sort takes from the comparator: `a` may stand before `b`
unless the comparator is positive (`NaN` counts as zero). -/
def notAfter (a b : Record) : Prop :=
  match compareDates a b with
  | some v => v ≤ 0
  | none => True

instance (a b : Record) : Decidable (notAfter a b) := by
  unfold notAfter; cases compareDates a b <;> infer_instance

/-- The builtin `Array.prototype.sort(comparator)`: a stable sort. It is written as an
insertion sort; every stable sort returns the same array when the comparator
is consistent, and for an inconsistent comparator the language leaves the
order to the implementation. -/
def jsSort (l : List Record) : List Record := l.insertionSort notAfter

/-- Lines 142–150: the combined ledger, sorted. The comparator calls `replace`
on the `购买日期` of both arguments, a `TypeError` when it is not a string; it
is called on every element as soon as there are two. -/
def sortCombined (existingLedger newTransactions : List Record) :
    Except Err (List Record) :=
  let combinedLedger := existingLedger ++ newTransactions
  if combinedLedger.length ≤ 1 then .ok combinedLedger
  else if combinedLedger.all (fun r => match r.purchaseDate with | .str _ => true | _ => false)
  then .ok (jsSort combinedLedger)
  else .error .typeError

/-! ## The run (lines 67–175) -/

/-- What the run reads. -/
structure World where
  /-- The listing `fs.readdirSync(WECHAT_BILLS_DIR)`. -/
  dir : List String
  /-- The value `JSON.parse(fs.readFileSync(RULES_FILE, 'utf8'))`, `none` when it throws. -/
  rulesFile : Option (List Rule)
  /-- The rows `readCsv(file)` resolves to. -/
  readCsv : String → List Record
  /-- The rows `readWeChatCsv(file)` resolves to. -/
  readWeChatCsv : String → List Row
  /-- The text `new Date(v).toLocaleDateString('zh-CN', ...)` of the host (line 106);
  it returns a string for every argument, `Invalid Date` for an invalid date. -/
  longDate : JsVal → String

/-- The externally visible steps of a run. -/
inductive Event where
  /-- The log line `- Found main ledger file: ...` (line 79). -/
  | foundLedger (file : String)
  /-- Reading and parsing the rules file (line 81). -/
  | readRules
  /-- Reading the ledger file (line 82). -/
  | readLedger (file : String)
  /-- Reading an export file (line 101). -/
  | readExport (file : String)
  /-- Overwriting the ledger file with the rows given (line 156). -/
  | writeLedger (file : String) (rows : List Record)
  /-- Writing the JSON snapshot with the rows given (lines 95, 137, 160). -/
  | writeJson (rows : List Record)
  deriving DecidableEq

/-- A run: its trace and how it ends. -/
structure Run where
  trace : List Event
  result : Except Err Unit
  deriving DecidableEq

/-- The outer loop over the export files (lines 100–133): the files read and
the state reached, or the exception thrown. -/
def processFiles (w : World) (rules : List Rule) :
    IngestState → List String → List Event × Except Err IngestState
  | st, [] => ([], .ok st)
  | st, file :: rest =>
    match processRows w.longDate rules st (w.readWeChatCsv file) with
    | .error e => ([.readExport file], .error e)
    | .ok st1 =>
      let r := processFiles w rules st1 rest
      (.readExport file :: r.1, r.2)

/-- The filter of line 71. -/
def ledgerFilesOf (dir : List String) : List String :=
  dir.filter fun f => jsStartsWith f LEDGER_FILE_PREFIX && jsEndsWith f ".csv"

/-- The filter of line 91. -/
def wechatBillFilesOf (dir : List String) : List String :=
  dir.filter fun f => jsStartsWith f "wechat_bill" && jsEndsWith f ".csv"

/-- The part of `processLedger` after the ledger file is chosen (lines 79–166). -/
def runWithLedger (w : World) (mainLedgerFile : String) : Run :=
  match w.rulesFile with
  | none => ⟨[.foundLedger mainLedgerFile, .readRules], .error .rulesUnreadable⟩
  | some rules =>
    let existingLedger := w.readCsv mainLedgerFile
    let pre : List Event := [.foundLedger mainLedgerFile, .readRules, .readLedger mainLedgerFile]
    match seedFingerprints [] existingLedger with
    | .error e => ⟨pre, .error e⟩
    | .ok existingFingerprints =>
      let wechatBillFiles := wechatBillFilesOf w.dir
      if wechatBillFiles.length = 0 then
        ⟨pre ++ [.writeJson existingLedger], .ok ()⟩
      else
        match processFiles w rules ⟨existingFingerprints, []⟩ wechatBillFiles with
        | (reads, .error e) => ⟨pre ++ reads, .error e⟩
        | (reads, .ok st) =>
          if st.newTransactions.length = 0 then
            ⟨pre ++ reads ++ [.writeJson existingLedger], .ok ()⟩
          else
            match sortCombined existingLedger st.newTransactions with
            | .error e => ⟨pre ++ reads, .error e⟩
            | .ok combinedLedger =>
              ⟨pre ++ reads ++ [.writeLedger mainLedgerFile combinedLedger,
                                .writeJson combinedLedger], .ok ()⟩

/-- The function `processLedger` (lines 67–175). -/
def processLedger (w : World) : Run :=
  let ledgerFiles := ledgerFilesOf w.dir
  if ledgerFiles.length = 0 then ⟨[], .error .noLedger⟩
  else if ledgerFiles.length > 1 then ⟨[], .error .multipleLedgers⟩
  else
    match ledgerFiles with
    | mainLedgerFile :: _ => runWithLedger w mainLedgerFile
    | [] => ⟨[], .error .noLedger⟩

/-! ## A host for the worked examples -/

/-- Days of month `m` of year `y`. -/
def daysInMonth (y m : Nat) : Nat :=
  match m with
  | 2 => if isLeap y then 29 else 28
  | 4 => 30 | 6 => 30 | 9 => 30 | 11 => 30
  | _ => 31

/-- A host date rendering used in the worked examples: for a text that starts
with a calendar date `YYYY-MM-DD`, alone or followed by a blank and a time of
day, the long form `Y年M月D日` of the `zh-CN` locale; `Invalid Date` for any
other argument. -/
def exampleLongDate : JsVal → String
  | .str s =>
    match splitAtChar '-' (s.data.takeWhile (· ≠ ' ')) with
    | none => "Invalid Date"
    | some (ys, r) =>
      match splitAtChar '-' r with
      | none => "Invalid Date"
      | some (ms, ds) =>
        if ys.length = 4 && isNumeral 4 ys && ms.length = 2 && isNumeral 2 ms &&
            ds.length = 2 && isNumeral 2 ds && decide (1000 ≤ digitsVal ys) &&
            decide (1 ≤ digitsVal ms) && decide (digitsVal ms ≤ 12) &&
            decide (1 ≤ digitsVal ds) &&
            decide (digitsVal ds ≤ daysInMonth (digitsVal ys) (digitsVal ms)) then
          Nat.repr (digitsVal ys) ++ "年" ++ Nat.repr (digitsVal ms) ++ "月" ++
            Nat.repr (digitsVal ds) ++ "日"
        else "Invalid Date"
  | _ => "Invalid Date"

/-- A world with one ledger file `家庭账本.csv` and one export file
`wechat_bill.csv`, with the rules, ledger rows and export rows given. -/
def exampleWorld (rules : List Rule) (ledger : List Record) (bill : List Row) : World :=
  { dir := ["chatlog.md", "rules.json", "wechat_bill.csv", "家庭账本.csv"]
    rulesFile := some rules
    readCsv := fun _ => ledger
    readWeChatCsv := fun _ => bill
    longDate := exampleLongDate }

/-- A ledger row of the worked examples, as `readCsv` delivers it. -/
def coffeeRecord : Record :=
  { product := .str "Latte", quantity := .str "1", purchaseDate := .str "2024年3月1日",
    amount := .str "50.00", category := .str "餐饮", note := .str "CoffeeShop",
    platform := .str "线下" }

/-- An export row of the worked examples whose fingerprint is the one of
`coffeeRecord`. -/
def coffeeRow : Row :=
  ["2024-03-01 08:00:00", "商户消费", "CoffeeShop(Downtown)", "Latte", "支出", "¥50.00",
   "零钱", "支付成功", "1000", "2000", "/"]

/-- An export row of the worked examples that is no expense. -/
def incomeRow : Row :=
  ["2024-03-02 10:00:00", "转账", "Friend", "/", "收入", "¥8.00",
   "零钱", "已存入零钱", "1001", "2001", "/"]

/-- An expense row of the worked examples that ends after the `收/支` cell. -/
def shortRow : Row := ["2024-03-02 09:00:00", "商户消费", "Bookstore", "Novel", "支出"]

/-- An expense row of the worked examples whose `交易对方` cell is empty. -/
def anonymousRow : Row :=
  ["2024-03-01 10:00:00", "商户消费", "", "Coffee", "支出", "¥50.00",
   "零钱", "支付成功", "1002", "2002", "/"]

/-- The record the loop builds from `anonymousRow` when no rule matches. -/
def anonymousTx : Record :=
  { product := .str "Coffee", quantity := .str "", purchaseDate := .str "2024年3月1日",
    amount := .num (.fin 50), category := .str "待分类", note := .str "",
    platform := .str "线下" }

/-- A ledger record of the worked examples with the date text given. -/
def recordOn (date note : String) : Record :=
  { product := .str "Item", quantity := .str "", purchaseDate := .str date,
    amount := .str "10.00", category := .str "待分类", note := .str note,
    platform := .str "线下" }

/-! ## Definitions on the side of the specification -/

/-- The substring before the first opening parenthesis, `(` or `（`. -/
def beforeParen (l : List Char) : List Char :=
  l.takeWhile fun c => !(decide (c = '(') || decide (c = '（'))

/-- Some keyword of the rule is a substring of the merchant. -/
def ruleMatches (merchant : String) (rule : Rule) : Bool :=
  (keywordsOf rule).any fun k => decide (k.data <:+: merchant.data)

/-- The reference classifier of the specification: the first rule in list
order of which some keyword is a substring of the merchant gives the category,
the product and, when it has a non-empty one, the platform (`线下` otherwise);
when no rule matches, the category is `待分类`, the product is `placeholder`
and the platform is `线下`. The result is the triple (类别, 所购商品, 购物平台). -/
def classifyRef (merchant : String) (placeholder : JsVal) (rules : List Rule) :
    JsVal × JsVal × JsVal :=
  match rules.find? (ruleMatches merchant) with
  | some rule =>
    (.str rule.category, .str rule.product,
      match rule.platform with
      | some p => if p ≠ "" then .str p else .str "线下"
      | none => .str "线下")
  | none => (.str "待分类", placeholder, .str "线下")

/-- The amount line 105 computes for a row; a `TypeError` when the row has no
`金额(元)` cell to call `replace` on. -/
def rowAmount (row : Row) : Except Err JsNum :=
  match rowGet row "金额(元)" with
  | .str a => .ok (parseFloat (.str (jsReplace a "¥" "")))
  | _ => .error .typeError

/-- The fingerprint lines 105–108 compute for a row. -/
def rowFingerprint (longDate : JsVal → String) (row : Row) : Except Err String :=
  match rowAmount row with
  | .error e => .error e
  | .ok amount =>
    createFingerprint (.str (longDate (rowGet row "交易时间"))) (.num amount)
      (rowGet row "交易对方")

/-- The fingerprint of a new transaction: the one line 108 computed from the
date, the amount and the merchant that lines 114, 115 and 117 store in it. -/
def txFingerprint (tx : Record) : Except Err String :=
  createFingerprint tx.purchaseDate tx.amount tx.note

/-- The distinct elements of a list, in the order of their first occurrence. -/
def firstOccurrences : List String → List String
  | [] => []
  | x :: xs => x :: (firstOccurrences xs).filter (· ≠ x)

/-- The events that write the ledger file or the JSON snapshot. -/
def isWrite : Event → Bool
  | .writeLedger _ _ => true
  | .writeJson _ => true
  | _ => false

/-- The writes a run performs, in order. -/
def writesOf (r : Run) : List Event := r.trace.filter isWrite

/-- The events that read an export file. -/
def isExportRead : Event → Bool
  | .readExport _ => true
  | _ => false

/-- The ledger file an event names, when it names one. -/
def ledgerFileOf : Event → Option String
  | .foundLedger f => some f
  | .readLedger f => some f
  | .writeLedger f _ => some f
  | _ => none

/-- The calendar date (year, month, day) that a text in the long form
`Y年M月D日` names, as `toLocaleDateString('zh-CN', ...)` writes it: a four-digit
year, then month and day without leading zero, the day existing in that month;
`none` for any other text. -/
def calendarDate (s : String) : Option (Nat × Nat × Nat) :=
  match splitAtChar '年' s.data with
  | none => none
  | some (ys, r) =>
    match splitAtChar '月' r with
    | none => none
    | some (ms, r2) =>
      match splitAtChar '日' r2 with
      | some (ds, []) =>
        if ys.length = 4 && isNumeral 4 ys && decide (1000 ≤ digitsVal ys) &&
            isNumeral 2 ms && isNumeral 2 ds &&
            decide (ms.head? ≠ some '0') && decide (ds.head? ≠ some '0') &&
            decide (1 ≤ digitsVal ms) && decide (digitsVal ms ≤ 12) &&
            decide (1 ≤ digitsVal ds) &&
            decide (digitsVal ds ≤ daysInMonth (digitsVal ys) (digitsVal ms)) then
          some (digitsVal ys, digitsVal ms, digitsVal ds)
        else none
      | _ => none

/-- The calendar date of a record whose `购买日期` is in the long form. -/
def dateOf (r : Record) : Option (Nat × Nat × Nat) :=
  match r.purchaseDate with
  | .str d => calendarDate d
  | _ => none

/-- The calendar date `a` is not after the calendar date `b`. -/
def calLe (a b : Nat × Nat × Nat) : Prop :=
  a.1 < b.1 ∨ (a.1 = b.1 ∧ (a.2.1 < b.2.1 ∨ (a.2.1 = b.2.1 ∧ a.2.2 ≤ b.2.2)))

instance (a b : Nat × Nat × Nat) : Decidable (calLe a b) := by
  unfold calLe; infer_instance

/-- Both records have a long-form date and the date of `a` is not after the
date of `b`. -/
def dateNotAfter (a b : Record) : Prop :=
  match dateOf a, dateOf b with
  | some x, some y => calLe x y
  | _, _ => False

instance (a b : Record) : Decidable (dateNotAfter a b) := by
  unfold dateNotAfter; cases dateOf a <;> cases dateOf b <;> infer_instance

/-- The fingerprint lines 86–87 compute for a row of the existing ledger. -/
def seedKey (row : Record) : Except Err String :=
  createFingerprint row.purchaseDate row.amount (jsOr (jsOr row.note row.product) (.str ""))

/-! # Theorems -/

/-! ## Fingerprint engine -/

theorem matchBeforeParen_eq (l : List Char) :
    matchBeforeParen l =
      if (beforeParen l).any isLineTerminator then none else some (beforeParen l) := by
  induction l with
  | nil => simp [matchBeforeParen, beforeParen]
  | cons c cs ih =>
    unfold matchBeforeParen
    by_cases hp : c = '(' ∨ c = '（'
    · simp only [hp, if_true]
      rcases hp with h | h <;> simp [beforeParen, h]
    · have hc1 : c ≠ '(' := fun h => hp (Or.inl h)
      have hc2 : c ≠ '（' := fun h => hp (Or.inr h)
      have hb : beforeParen (c :: cs) = c :: beforeParen cs := by
        simp [beforeParen, List.takeWhile, hc1, hc2]
      rw [if_neg hp, hb]
      by_cases hl : isLineTerminator c = true
      · simp [hl]
      · simp only [hl, ih, List.any_cons, Bool.false_or]
        by_cases ha : (beforeParen cs).any isLineTerminator = true
        · simp [ha]
        · simp [ha]

theorem getMerchantKeyword_str (m : String) :
    getMerchantKeyword (.str m) =
      .ok (if (beforeParen m.data).any isLineTerminator then jsTrim m
           else ⟨trimChars (beforeParen m.data)⟩) := by
  unfold getMerchantKeyword
  by_cases hm : m = ""
  · subst hm
    simp [truthy, beforeParen, trimChars, dropEndWhile]
  · have ht : truthy (.str m) = true := by simp [truthy, hm]
    simp only [ht, Bool.not_true, Bool.false_eq_true, if_false, matchBeforeParen_eq]
    by_cases ha : (beforeParen m.data).any isLineTerminator = true
    · simp [ha]
    · simp [ha]

/-- Counterexample to C3: two merchants equal up to their first opening
parenthesis get different fingerprints, and the keyword is not the part before
the parenthesis, when a line terminator stands before the parenthesis. -/
theorem fingerprint_keeps_suffix_after_line_break :
    beforeParen "a\n(b)".data = beforeParen "a\n(c)".data ∧
    createFingerprint (.str "2024年3月1日") (.str "50") (.str "a\n(b)")
      ≠ createFingerprint (.str "2024年3月1日") (.str "50") (.str "a\n(c)") ∧
    getMerchantKeyword (.str "a\n(b)") = .ok "a\n(b)" ∧
    getMerchantKeyword (.str "a\n(b)") ≠ .ok ⟨trimChars (beforeParen "a\n(b)".data)⟩ := by
  decide!

/-- C3, amended: for every date, amount and pair of merchant strings that are
equal up to their first opening parenthesis (`(` or `（`), with no line
terminator before it, the fingerprints are equal, and the merchant keyword is
the substring before the first opening parenthesis, trimmed; the keyword of an
empty or absent merchant is the empty string. -/
theorem fingerprint_ignores_parenthetical (date amount : JsVal) (m1 m2 : String)
    (hsame : beforeParen m1.data = beforeParen m2.data)
    (hline : (beforeParen m1.data).any isLineTerminator = false) :
    createFingerprint date amount (.str m1) = createFingerprint date amount (.str m2) ∧
    getMerchantKeyword (.str m1) = .ok ⟨trimChars (beforeParen m1.data)⟩ ∧
    getMerchantKeyword (.str m2) = .ok ⟨trimChars (beforeParen m2.data)⟩ ∧
    getMerchantKeyword (.str "") = .ok "" ∧
    getMerchantKeyword .undefined = .ok "" := by
  have h1 : getMerchantKeyword (.str m1) = .ok ⟨trimChars (beforeParen m1.data)⟩ := by
    rw [getMerchantKeyword_str, hline]; rfl
  have h2 : getMerchantKeyword (.str m2) = .ok ⟨trimChars (beforeParen m2.data)⟩ := by
    rw [getMerchantKeyword_str, ← hsame, hline]; rfl
  refine ⟨?_, h1, h2, by decide, by decide⟩
  unfold createFingerprint
  rw [h1, h2, hsame]

theorem fingerprint_ignores_parenthetical_witness :
    beforeParen "Coffee (Downtown)".data = beforeParen "Coffee （x".data ∧
    (beforeParen "Coffee (Downtown)".data).any isLineTerminator = false ∧
    createFingerprint (.str "2024年3月1日") (.str "50") (.str "Coffee (Downtown)")
      = createFingerprint (.str "2024年3月1日") (.str "50") (.str "Coffee （x") :=
  ⟨by decide, by decide,
   (fingerprint_ignores_parenthetical (.str "2024年3月1日") (.str "50")
      "Coffee (Downtown)" "Coffee （x" (by decide) (by decide)).1⟩

/-! ## Classifier -/

theorem includesChars_iff (k s : List Char) : includesChars k s = true ↔ k <:+: s := by
  induction s with
  | nil => cases k <;> simp [includesChars]
  | cons c cs ih =>
    simp only [includesChars, Bool.or_eq_true, ih, List.isPrefixOf_iff_prefix,
      List.infix_cons_iff]

theorem someIncludes_str (m : String) (ks : List String) :
    someIncludes (.str m) ks = .ok (ks.any fun k => decide (k.data <:+: m.data)) := by
  induction ks with
  | nil => rfl
  | cons k ks ih =>
    unfold someIncludes
    simp only [jsIncludes, List.any_cons]
    by_cases h : k.data <:+: m.data
    · have : includesChars k.data m.data = true := (includesChars_iff _ _).2 h
      simp [this, h]
    · have : includesChars k.data m.data = false := by
        cases hc : includesChars k.data m.data
        · rfl
        · exact absurd ((includesChars_iff _ _).1 hc) h
      simp [this, h, ih]

theorem applyRules_str (m : String) (tx : Record) (rules : List Rule)
    (hcat : tx.category = .str "待分类") (hpl : tx.platform = .str "线下") :
    ∃ out, applyRules (.str m) tx rules = .ok out ∧
      (out.category, out.product, out.platform) = classifyRef m tx.product rules ∧
      out.quantity = tx.quantity ∧ out.purchaseDate = tx.purchaseDate ∧
      out.amount = tx.amount ∧ out.note = tx.note := by
  induction rules with
  | nil => exact ⟨tx, rfl, by simp [classifyRef, hcat, hpl], rfl, rfl, rfl, rfl⟩
  | cons rule rest ih =>
    unfold applyRules
    rw [someIncludes_str]
    by_cases h : ruleMatches m rule = true
    · have h' : ((keywordsOf rule).any fun k => decide (k.data <:+: m.data)) = true := h
      rw [h']
      refine ⟨_, rfl, ?_, rfl, rfl, rfl, rfl⟩
      simp only [classifyRef, List.find?_cons, h, hpl]
    · have h' : ((keywordsOf rule).any fun k => decide (k.data <:+: m.data)) = false := by
        simpa [ruleMatches] using h
      rw [h']
      obtain ⟨out, ho, hc, hrest⟩ := ih
      refine ⟨out, ho, ?_, hrest⟩
      have hf : ruleMatches m rule = false := by simpa using h
      simp only [classifyRef, List.find?_cons, hf] at hc ⊢
      exact hc

/-! ## Rows of an export file -/

theorem rowGet_time (row : Row) :
    rowGet row "交易时间" = (match row[0]? with | some s => .str s | none => .undefined) := by
  have h1 : "交易时间" ∈ weChatHeaders := by decide
  have h2 : weChatHeaders.indexOf "交易时间" = 0 := by decide
  simp only [rowGet, h1, h2, if_true]

theorem rowGet_merchant (row : Row) :
    rowGet row "交易对方" = (match row[2]? with | some s => .str s | none => .undefined) := by
  have h1 : "交易对方" ∈ weChatHeaders := by decide
  have h2 : weChatHeaders.indexOf "交易对方" = 2 := by decide
  simp only [rowGet, h1, h2, if_true]

theorem rowGet_direction (row : Row) :
    rowGet row "收/支" = (match row[4]? with | some s => .str s | none => .undefined) := by
  have h1 : "收/支" ∈ weChatHeaders := by decide
  have h2 : weChatHeaders.indexOf "收/支" = 4 := by decide
  simp only [rowGet, h1, h2, if_true]

/-- An expense row has a counterparty cell: the cells are named by position and
`收/支` stands after `交易对方`. -/
theorem merchant_of_expense (row : Row) (h : isExpense row = true) :
    ∃ m, rowGet row "交易对方" = .str m := by
  unfold isExpense at h
  rw [Bool.and_eq_true] at h
  have hd := of_decide_eq_true h.2
  rw [rowGet_direction] at hd
  rw [rowGet_merchant]
  cases h4 : row[4]? with
  | none => rw [h4] at hd; cases hd
  | some s =>
    have hlen : 4 < row.length := by
      by_contra hc
      rw [List.getElem?_eq_none (by omega)] at h4
      cases h4
    have : row[2]? = some (row[2]) := List.getElem?_eq_getElem (by omega)
    rw [this]
    exact ⟨_, rfl⟩

theorem createFingerprint_str (d : String) (amount : JsVal) (m : String) :
    ∃ fp, createFingerprint (.str d) amount (.str m) = .ok fp := by
  unfold createFingerprint
  rw [getMerchantKeyword_str]
  exact ⟨_, rfl⟩

theorem setAdd_of_not_mem {set : List String} {x : String} (h : x ∉ set) :
    setAdd set x = set ++ [x] := by
  simp [setAdd, h]

theorem processRow_skip (longDate : JsVal → String) (rules : List Rule) (st : IngestState)
    (row : Row) (h : isExpense row = false) : processRow longDate rules st row = .ok st := by
  simp [processRow, h]

theorem processRow_no_amount (longDate : JsVal → String) (rules : List Rule)
    (st : IngestState) (row : Row) (h : isExpense row = true)
    (ha : ∀ a, rowGet row "金额(元)" ≠ .str a) :
    processRow longDate rules st row = .error .typeError := by
  unfold processRow
  simp only [h, Bool.not_true, Bool.false_eq_true, if_false]

/-- What the body of the loop does on an expense row that has an amount cell. -/
theorem processRow_expense (longDate : JsVal → String) (rules : List Rule)
    (st : IngestState) (row : Row) (a : String) (hexp : isExpense row = true)
    (ha : rowGet row "金额(元)" = .str a) :
    ∃ m fp, rowGet row "交易对方" = .str m ∧ rowFingerprint longDate row = .ok fp ∧
      (fp ∈ st.existingFingerprints → processRow longDate rules st row = .ok st) ∧
      (fp ∉ st.existingFingerprints → ∃ tx,
        processRow longDate rules st row =
          .ok ⟨st.existingFingerprints ++ [fp], st.newTransactions ++ [tx]⟩ ∧
        txFingerprint tx = .ok fp ∧
        tx.amount = .num (parseFloat (.str (jsReplace a "¥" ""))) ∧
        (tx.category, tx.product, tx.platform) =
          classifyRef m (jsOr (rowGet row "商品") (.str "未知商品")) rules ∧
        tx.note = .str m ∧ tx.purchaseDate = .str (longDate (rowGet row "交易时间")) ∧
        tx.quantity = .str "") := by
  obtain ⟨m, hm⟩ := merchant_of_expense row hexp
  obtain ⟨fp, hfp⟩ := createFingerprint_str (longDate (rowGet row "交易时间"))
    (.num (parseFloat (.str (jsReplace a "¥" "")))) m
  refine ⟨m, fp, hm, ?_, ?_, ?_⟩
  · simp only [rowFingerprint, rowAmount, ha, hm, hfp]
  · intro hin
    unfold processRow
    simp only [hexp, Bool.not_true, Bool.false_eq_true, if_false, ha, hm, hfp, hin, if_true]
  · intro hnot
    obtain ⟨tx, htx, hcls, hq, hd, hamt, hnote⟩ :=
      applyRules_str m
        (freshTx row (longDate (rowGet row "交易时间"))
          (parseFloat (.str (jsReplace a "¥" ""))) (.str m)) rules rfl rfl
    refine ⟨tx, ?_, ?_, hamt, hcls, hnote, hd, hq⟩
    · unfold processRow
      simp only [hexp, Bool.not_true, Bool.false_eq_true, if_false, ha, hm, hfp, hnot,
        htx, setAdd_of_not_mem hnot]
    · unfold txFingerprint
      rw [hd, hamt, hnote]
      exact hfp

/-- Counterexample to C4: no rule matches, and the product of the new record is
the `商品` text of the row, not the placeholder `未知商品`. -/
theorem unmatched_product_is_row_item :
    processRow exampleLongDate [] ⟨[], []⟩
        ["2024-03-02 09:00:00", "商户消费", "Bookstore", "Novel", "支出", "¥30.00"]
      = .ok ⟨["2024-3-2|30.00|Bookstore"],
          [{ product := .str "Novel", quantity := .str "", purchaseDate := .str "2024年3月2日",
             amount := .num (.fin 30), category := .str "待分类", note := .str "Bookstore",
             platform := .str "线下" }]⟩ ∧
    ([] : List Rule).find? (ruleMatches "Bookstore") = none ∧
    (JsVal.str "待分类", JsVal.str "Novel", JsVal.str "线下")
      ≠ classifyRef "Bookstore" (.str "未知商品") [] := by
  decide!

/-- C4, amended: for every merchant string and rule list, the new record's
(类别, 所购商品, 购物平台) equals the reference result: the first rule in list
order of which some keyword is a substring of the merchant gives category and
product, and the platform when it has a non-empty one (`线下` otherwise), and no
later rule affects the record; if no rule matches, the category is `待分类`, the
platform is `线下` and the product is the `商品` text of the row when that is
non-empty, the placeholder `未知商品` only otherwise. -/
theorem classifier_first_match (longDate : JsVal → String) (rules : List Rule)
    (st : IngestState) (row : Row) (a : String) (hexp : isExpense row = true)
    (ha : rowGet row "金额(元)" = .str a)
    (hnew : ∀ fp, rowFingerprint longDate row = .ok fp → fp ∉ st.existingFingerprints) :
    ∃ m tx fp, rowGet row "交易对方" = .str m ∧
      processRow longDate rules st row =
        .ok ⟨st.existingFingerprints ++ [fp], st.newTransactions ++ [tx]⟩ ∧
      (tx.category, tx.product, tx.platform) =
        classifyRef m (jsOr (rowGet row "商品") (.str "未知商品")) rules := by
  obtain ⟨m, fp, hm, hfp, _, hfresh⟩ := processRow_expense longDate rules st row a hexp ha
  obtain ⟨tx, hrun, _, _, hcls, _⟩ := hfresh (hnew fp hfp)
  exact ⟨m, tx, fp, hm, hrun, hcls⟩

theorem classifier_first_match_witness :
    isExpense ["2024-03-02 09:00:00", "商户消费", "Bookstore", "", "支出", "¥30.00"] = true ∧
    rowGet ["2024-03-02 09:00:00", "商户消费", "Bookstore", "", "支出", "¥30.00"] "金额(元)"
      = .str "¥30.00" ∧
    ∃ m tx fp,
      rowGet ["2024-03-02 09:00:00", "商户消费", "Bookstore", "", "支出", "¥30.00"] "交易对方"
        = .str m ∧
      processRow exampleLongDate
          [⟨.one "Book", "Reading", "Book", none⟩, ⟨.many ["store", "x"], "Shop", "Thing", some "Web"⟩]
          ⟨[], []⟩ ["2024-03-02 09:00:00", "商户消费", "Bookstore", "", "支出", "¥30.00"]
        = .ok ⟨[] ++ [fp], [] ++ [tx]⟩ ∧
      (tx.category, tx.product, tx.platform) =
        classifyRef m
          (jsOr (rowGet ["2024-03-02 09:00:00", "商户消费", "Bookstore", "", "支出", "¥30.00"] "商品")
            (.str "未知商品"))
          [⟨.one "Book", "Reading", "Book", none⟩, ⟨.many ["store", "x"], "Shop", "Thing", some "Web"⟩] :=
  ⟨by decide, by decide,
   classifier_first_match exampleLongDate _ ⟨[], []⟩ _ "¥30.00" (by decide) (by decide)
     (fun _ _ h => by cases h)⟩

/-! ## Stored amount -/

theorem scale10_nonneg (m : Nat) (e : Int) : 0 ≤ scale10 m e := by
  unfold scale10
  split
  · exact Nat.cast_nonneg _
  · exact div_nonneg (Nat.cast_nonneg _) (Nat.cast_nonneg _)

theorem parseUnsigned_nonneg (u : List Char) :
    parseUnsigned false u = .nan ∨ (parseUnsigned false u).nonneg := by
  unfold parseUnsigned
  split
  · right; rfl
  · simp only
    split
    · left; rfl
    · right
      simp only [Bool.false_eq_true, if_false]
      exact scale10_nonneg _ _

theorem parseFloatChars_nonneg (s : List Char)
    (h : (s.dropWhile isJsSpace).head? ≠ some '-') :
    parseFloatChars s = .nan ∨ (parseFloatChars s).nonneg := by
  unfold parseFloatChars
  split
  · rename_i u heq
    rw [heq] at h
    exact absurd rfl h
  · exact parseUnsigned_nonneg _
  · exact parseUnsigned_nonneg _

/-- Counterexample to C8: an expense row whose amount text is a negative number
yields a new transaction whose stored amount is negative. -/
theorem negative_amount_is_stored_negative :
    processRow exampleLongDate [] ⟨[], []⟩
        ["2024-03-02 09:00:00", "商户消费", "Bookstore", "Novel", "支出", "¥-5.00"]
      = .ok ⟨["2024-3-2|5.00|Bookstore"],
          [{ product := .str "Novel", quantity := .str "", purchaseDate := .str "2024年3月2日",
             amount := .num (.fin (-5)), category := .str "待分类", note := .str "Bookstore",
             platform := .str "线下" }]⟩ ∧
    ¬ (JsNum.fin (-5)).nonneg := by
  decide!

/-- C8, amended: for every export row that yields a new transaction, the
`金额（元）` stored in the record is the number `parseFloat` reads from the
`金额(元)` text with its first `¥` removed, sign included (the absolute value is
taken only inside the fingerprint); it is greater than or equal to zero whenever
that text carries no minus sign in front and is read as a number. -/
theorem stored_amount_keeps_sign (longDate : JsVal → String) (rules : List Rule)
    (st : IngestState) (row : Row) (a : String) (hexp : isExpense row = true)
    (ha : rowGet row "金额(元)" = .str a)
    (hnew : ∀ fp, rowFingerprint longDate row = .ok fp → fp ∉ st.existingFingerprints) :
    ∃ tx fp,
      processRow longDate rules st row =
        .ok ⟨st.existingFingerprints ++ [fp], st.newTransactions ++ [tx]⟩ ∧
      tx.amount = .num (parseFloat (.str (jsReplace a "¥" ""))) ∧
      (((jsReplace a "¥" "").data.dropWhile isJsSpace).head? ≠ some '-' →
        parseFloat (.str (jsReplace a "¥" "")) ≠ .nan →
        (parseFloat (.str (jsReplace a "¥" ""))).nonneg) := by
  obtain ⟨m, fp, _, hfp, _, hfresh⟩ := processRow_expense longDate rules st row a hexp ha
  obtain ⟨tx, hrun, _, hamt, _⟩ := hfresh (hnew fp hfp)
  refine ⟨tx, fp, hrun, hamt, ?_⟩
  intro hsign hnan
  rcases parseFloatChars_nonneg _ hsign with h | h
  · exact absurd h hnan
  · exact h

theorem stored_amount_keeps_sign_witness :
    isExpense ["2024-03-02 09:00:00", "商户消费", "Bookstore", "", "支出", "¥30.00"] = true ∧
    rowGet ["2024-03-02 09:00:00", "商户消费", "Bookstore", "", "支出", "¥30.00"] "金额(元)"
      = .str "¥30.00" ∧
    ∃ tx fp,
      processRow exampleLongDate [] ⟨[], []⟩
          ["2024-03-02 09:00:00", "商户消费", "Bookstore", "", "支出", "¥30.00"]
        = .ok ⟨[] ++ [fp], [] ++ [tx]⟩ ∧
      tx.amount = .num (parseFloat (.str (jsReplace "¥30.00" "¥" ""))) ∧
      (((jsReplace "¥30.00" "¥" "").data.dropWhile isJsSpace).head? ≠ some '-' →
        parseFloat (.str (jsReplace "¥30.00" "¥" "")) ≠ .nan →
        (parseFloat (.str (jsReplace "¥30.00" "¥" ""))).nonneg) :=
  ⟨by decide, by decide,
   stored_amount_keeps_sign exampleLongDate [] ⟨[], []⟩ _ "¥30.00" (by decide) (by decide)
     (fun _ _ h => by cases h)⟩

/-! ## Ingestion loop -/

theorem firstOccurrences_filter (p : String → Bool) (l : List String) :
    firstOccurrences (l.filter p) = (firstOccurrences l).filter p := by
  induction l with
  | nil => rfl
  | cons x xs ih =>
    by_cases hx : p x = true
    · simp only [List.filter_cons_of_pos hx, firstOccurrences, ih, List.filter_filter]
      congr 1
      apply List.filter_congr
      intro y _
      exact Bool.and_comm _ _
    · have hx' : p x = false := by simpa using hx
      rw [List.filter_cons_of_neg hx, ih]
      simp only [firstOccurrences, List.filter_cons_of_neg hx, List.filter_filter]
      apply List.filter_congr
      intro y _
      by_cases hy : y = x
      · subst hy; simp [hx']
      · simp [hy]

theorem mem_firstOccurrences (x : String) (l : List String) :
    x ∈ firstOccurrences l ↔ x ∈ l := by
  induction l with
  | nil => simp [firstOccurrences]
  | cons y ys ih =>
    simp only [firstOccurrences, List.mem_cons, List.mem_filter, ih]
    by_cases h : x = y
    · simp [h]
    · simp [h]

theorem nodup_firstOccurrences (l : List String) : (firstOccurrences l).Nodup := by
  induction l with
  | nil => simp [firstOccurrences]
  | cons y ys ih =>
    simp only [firstOccurrences, List.nodup_cons, List.mem_filter]
    refine ⟨?_, ih.filter _⟩
    rintro ⟨_, h⟩
    simp at h

theorem rowGet_cases (row : Row) (key : String) :
    rowGet row key = .undefined ∨ ∃ s, rowGet row key = .str s := by
  unfold rowGet
  split
  · split
    · exact Or.inr ⟨_, rfl⟩
    · exact Or.inl rfl
  · exact Or.inl rfl

theorem processRows_spec (longDate : JsVal → String) (rules : List Rule) :
    ∀ (rows : List Row) (st : IngestState),
      (∀ row ∈ rows, isExpense row = true → rowGet row "金额(元)" ≠ .undefined) →
      ∃ fps txs,
        List.Forall₂ (fun row fp => rowFingerprint longDate row = .ok fp)
          (rows.filter isExpense) fps ∧
        processRows longDate rules st rows =
          .ok ⟨st.existingFingerprints ++
                firstOccurrences (fps.filter (· ∉ st.existingFingerprints)),
               st.newTransactions ++ txs⟩ ∧
        List.Forall₂ (fun tx fp => txFingerprint tx = .ok fp) txs
          (firstOccurrences (fps.filter (· ∉ st.existingFingerprints))) := by
  intro rows
  induction rows with
  | nil =>
    intro st _
    exact ⟨[], [], List.Forall₂.nil, by simp [processRows, firstOccurrences], List.Forall₂.nil⟩
  | cons row rest ih =>
    intro st hwf
    have hrest : ∀ r ∈ rest, isExpense r = true → rowGet r "金额(元)" ≠ .undefined :=
      fun r hr => hwf r (List.mem_cons_of_mem _ hr)
    by_cases hexp : isExpense row = true
    · obtain ⟨a, ha⟩ : ∃ a, rowGet row "金额(元)" = .str a := by
        rcases rowGet_cases row "金额(元)" with h | h
        · exact absurd h (hwf row (List.mem_cons_self _ _) hexp)
        · exact h
      obtain ⟨m, fp, _, hfp, hseen, hfresh⟩ :=
        processRow_expense longDate rules st row a hexp ha
      by_cases hin : fp ∈ st.existingFingerprints
      · obtain ⟨fps, txs, h1, h2, h3⟩ := ih st hrest
        refine ⟨fp :: fps, txs, ?_, ?_, ?_⟩
        · rw [List.filter_cons_of_pos hexp]
          exact List.Forall₂.cons hfp h1
        · have hf : (fp :: fps).filter (· ∉ st.existingFingerprints)
              = fps.filter (· ∉ st.existingFingerprints) := by
            simp [hin]
          rw [hf]
          simp only [processRows, hseen hin]
          exact h2
        · have hf : (fp :: fps).filter (· ∉ st.existingFingerprints)
              = fps.filter (· ∉ st.existingFingerprints) := by
            simp [hin]
          rw [hf]
          exact h3
      · obtain ⟨tx, hrun, htx, _⟩ := hfresh hin
        obtain ⟨fps, txs, h1, h2, h3⟩ :=
          ih ⟨st.existingFingerprints ++ [fp], st.newTransactions ++ [tx]⟩ hrest
        have hkey : firstOccurrences ((fp :: fps).filter (· ∉ st.existingFingerprints))
            = fp :: firstOccurrences (fps.filter (· ∉ st.existingFingerprints ++ [fp])) := by
          have hf : (fp :: fps).filter (· ∉ st.existingFingerprints)
              = fp :: fps.filter (· ∉ st.existingFingerprints) := by
            simp [hin]
          rw [hf]
          simp only [firstOccurrences]
          congr 1
          rw [← firstOccurrences_filter, List.filter_filter]
          congr 1
          apply List.filter_congr
          intro y _
          simp [List.mem_append, not_or, and_comm]
        refine ⟨fp :: fps, tx :: txs, ?_, ?_, ?_⟩
        · rw [List.filter_cons_of_pos hexp]
          exact List.Forall₂.cons hfp h1
        · rw [hkey]
          simp only [processRows, hrun]
          rw [h2]
          simp
        · rw [hkey]
          exact List.Forall₂.cons htx h3
    · have hexp' : isExpense row = false := by simpa using hexp
      obtain ⟨fps, txs, h1, h2, h3⟩ := ih st hrest
      refine ⟨fps, txs, ?_, ?_, h3⟩
      · rw [List.filter_cons_of_neg hexp]
        exact h1
      · simp only [processRows, processRow_skip longDate rules st row hexp']
        exact h2

theorem processRows_append (longDate : JsVal → String) (rules : List Rule) :
    ∀ (r1 r2 : List Row) (st : IngestState),
      processRows longDate rules st (r1 ++ r2) =
        match processRows longDate rules st r1 with
        | .error e => .error e
        | .ok st1 => processRows longDate rules st1 r2 := by
  intro r1
  induction r1 with
  | nil => intro r2 st; rfl
  | cons row rest ih =>
    intro r2 st
    simp only [List.cons_append, processRows]
    cases processRow longDate rules st row with
    | error e => rfl
    | ok st1 => exact ih r2 st1

/-- The loop over the files is the loop over the rows of all files, in order. -/
theorem processFiles_result (w : World) (rules : List Rule) :
    ∀ (files : List String) (st : IngestState),
      (processFiles w rules st files).2 =
        processRows w.longDate rules st (files.map w.readWeChatCsv).flatten := by
  intro files
  induction files with
  | nil => intro st; rfl
  | cons file rest ih =>
    intro st
    simp only [List.map_cons, List.flatten_cons, processRows_append, processFiles]
    cases processRows w.longDate rules st (w.readWeChatCsv file) with
    | error e => rfl
    | ok st1 => exact ih st1

/-- C2: the ingestion loop selects exactly the unseen expenses. For every set
`seen` of existing fingerprints and every sequence of export files whose
expense rows have an amount cell, the loop ends normally; with `fps` the
fingerprints of the rows that have a non-empty `交易时间` and `收/支` equal to
`支出`, in row order, the new transactions carry, one each and in this order,
the distinct fingerprints of `fps` that are not in `seen`, in order of first
occurrence; rows with another direction flag contribute nothing; no new
transaction has a fingerprint in `seen` and no two share one. -/
theorem ingestion_selects_unseen (w : World) (rules : List Rule) (seen : List String)
    (files : List String)
    (hwf : ∀ row ∈ (files.map w.readWeChatCsv).flatten,
      isExpense row = true → rowGet row "金额(元)" ≠ .undefined) :
    ∃ st fps,
      (processFiles w rules ⟨seen, []⟩ files).2 = .ok st ∧
      List.Forall₂ (fun row fp => rowFingerprint w.longDate row = .ok fp)
        ((files.map w.readWeChatCsv).flatten.filter isExpense) fps ∧
      List.Forall₂ (fun tx fp => txFingerprint tx = .ok fp) st.newTransactions
        (firstOccurrences (fps.filter (· ∉ seen))) ∧
      (∀ fp ∈ firstOccurrences (fps.filter (· ∉ seen)), fp ∈ fps ∧ fp ∉ seen) ∧
      (∀ fp ∈ fps, fp ∉ seen → fp ∈ firstOccurrences (fps.filter (· ∉ seen))) ∧
      (firstOccurrences (fps.filter (· ∉ seen))).Nodup := by
  obtain ⟨fps, txs, h1, h2, h3⟩ :=
    processRows_spec w.longDate rules (files.map w.readWeChatCsv).flatten ⟨seen, []⟩ hwf
  simp only [List.nil_append] at h2 h3
  refine ⟨⟨seen ++ firstOccurrences (fps.filter (· ∉ seen)), txs⟩, fps, ?_, h1, h3, ?_, ?_,
    nodup_firstOccurrences _⟩
  · rw [processFiles_result]; exact h2
  · intro fp hfp
    rw [mem_firstOccurrences, List.mem_filter] at hfp
    exact ⟨hfp.1, by simpa using hfp.2⟩
  · intro fp hfp hns
    rw [mem_firstOccurrences, List.mem_filter]
    exact ⟨hfp, by simpa using hns⟩

theorem ingestion_selects_unseen_witness :
    (∀ row ∈ ((["wechat_bill.csv"].map
        (exampleWorld [] []
          [["2024-03-02 09:00:00", "商户消费", "Bookstore", "Novel", "支出", "¥30.00"],
           ["2024-03-02 10:00:00", "转账", "Friend", "/", "收入", "¥8.00"],
           ["2024-03-02 11:00:00", "商户消费", "Bookstore(2)", "Pen", "支出", "30"],
           ["2024-03-01 08:00:00", "商户消费", "CoffeeShop", "Latte", "支出", "¥50.00"]]
          ).readWeChatCsv).flatten),
      isExpense row = true → rowGet row "金额(元)" ≠ .undefined) ∧
    ∃ st fps,
      (processFiles
        (exampleWorld [] []
          [["2024-03-02 09:00:00", "商户消费", "Bookstore", "Novel", "支出", "¥30.00"],
           ["2024-03-02 10:00:00", "转账", "Friend", "/", "收入", "¥8.00"],
           ["2024-03-02 11:00:00", "商户消费", "Bookstore(2)", "Pen", "支出", "30"],
           ["2024-03-01 08:00:00", "商户消费", "CoffeeShop", "Latte", "支出", "¥50.00"]])
        [] ⟨["2024-3-1|50.00|CoffeeShop"], []⟩ ["wechat_bill.csv"]).2 = .ok st ∧
      List.Forall₂ (fun row fp => rowFingerprint exampleLongDate row = .ok fp)
        ((["wechat_bill.csv"].map
          (exampleWorld [] []
            [["2024-03-02 09:00:00", "商户消费", "Bookstore", "Novel", "支出", "¥30.00"],
             ["2024-03-02 10:00:00", "转账", "Friend", "/", "收入", "¥8.00"],
             ["2024-03-02 11:00:00", "商户消费", "Bookstore(2)", "Pen", "支出", "30"],
             ["2024-03-01 08:00:00", "商户消费", "CoffeeShop", "Latte", "支出", "¥50.00"]]
            ).readWeChatCsv).flatten.filter isExpense) fps ∧
      List.Forall₂ (fun tx fp => txFingerprint tx = .ok fp) st.newTransactions
        (firstOccurrences (fps.filter (· ∉ ["2024-3-1|50.00|CoffeeShop"]))) ∧
      (∀ fp ∈ firstOccurrences (fps.filter (· ∉ ["2024-3-1|50.00|CoffeeShop"])),
        fp ∈ fps ∧ fp ∉ ["2024-3-1|50.00|CoffeeShop"]) ∧
      (∀ fp ∈ fps, fp ∉ ["2024-3-1|50.00|CoffeeShop"] →
        fp ∈ firstOccurrences (fps.filter (· ∉ ["2024-3-1|50.00|CoffeeShop"]))) ∧
      (firstOccurrences (fps.filter (· ∉ ["2024-3-1|50.00|CoffeeShop"]))).Nodup :=
  ⟨by decide,
   ingestion_selects_unseen _ [] ["2024-3-1|50.00|CoffeeShop"] ["wechat_bill.csv"] (by decide)⟩

/-! ## The run -/

theorem processFiles_reads (w : World) (rules : List Rule) :
    ∀ (files : List String) (st : IngestState),
      ∀ e ∈ (processFiles w rules st files).1, ∃ f, e = .readExport f := by
  intro files
  induction files with
  | nil => intro st e he; simp [processFiles] at he
  | cons file rest ih =>
    intro st e he
    unfold processFiles at he
    cases hrows : processRows w.longDate rules st (w.readWeChatCsv file) with
    | error err =>
      rw [hrows] at he
      simp only [List.mem_singleton] at he
      exact ⟨file, he⟩
    | ok st1 =>
      rw [hrows] at he
      simp only [List.mem_cons] at he
      rcases he with h | h
      · exact ⟨file, h⟩
      · exact ih st1 e h

theorem filter_isWrite_reads {reads : List Event}
    (h : ∀ e ∈ reads, ∃ f, e = Event.readExport f) : reads.filter isWrite = [] := by
  rw [List.filter_eq_nil_iff]
  intro e he
  obtain ⟨f, rfl⟩ := h e he
  simp [isWrite]

theorem ledgerFileOf_reads {reads : List Event}
    (h : ∀ e ∈ reads, ∃ f, e = Event.readExport f) :
    ∀ e ∈ reads, ledgerFileOf e = none := by
  intro e he
  obtain ⟨f, rfl⟩ := h e he
  rfl

theorem trace_names_ledger (f : String) (reads tail : List Event)
    (hl : ∀ e ∈ reads, ledgerFileOf e = none)
    (ht : ∀ e ∈ tail, ledgerFileOf e = none ∨ ledgerFileOf e = some f) :
    ∀ e ∈ [Event.readRules, Event.readLedger f] ++ reads ++ tail,
      ledgerFileOf e = none ∨ ledgerFileOf e = some f := by
  intro e he
  rw [List.mem_append, List.mem_append] at he
  rcases he with (he | he) | he
  · simp only [List.mem_cons, List.mem_singleton, List.not_mem_nil, or_false] at he
    rcases he with rfl | rfl
    · exact Or.inl rfl
    · exact Or.inr rfl
  · exact Or.inl (hl e he)
  · exact ht e he

/-- The shapes a run that has chosen its ledger file can take: an error with
no write; the JSON snapshot of the existing rows alone; or the ledger file and
the JSON snapshot, both with the sorted combined rows. In each the trace starts
with the ledger file found and names no other ledger file. -/
theorem runWithLedger_shape (w : World) (f : String) :
    (∃ rest, (runWithLedger w f).trace = .foundLedger f :: rest ∧
      ∀ e ∈ rest, ledgerFileOf e = none ∨ ledgerFileOf e = some f) ∧
    ((∃ err, (runWithLedger w f).result = .error err ∧ writesOf (runWithLedger w f) = []) ∨
     ((runWithLedger w f).result = .ok () ∧
        writesOf (runWithLedger w f) = [.writeJson (w.readCsv f)]) ∨
     ((runWithLedger w f).result = .ok () ∧ ∃ rules seen st combined,
        w.rulesFile = some rules ∧ seedFingerprints [] (w.readCsv f) = .ok seen ∧
        (processFiles w rules ⟨seen, []⟩ (wechatBillFilesOf w.dir)).2 = .ok st ∧
        st.newTransactions ≠ [] ∧
        sortCombined (w.readCsv f) st.newTransactions = .ok combined ∧
        writesOf (runWithLedger w f) = [.writeLedger f combined, .writeJson combined])) := by
  have hnil : ∀ e ∈ ([] : List Event), ledgerFileOf e = none := fun e he => by cases he
  have hnil2 : ∀ e ∈ ([] : List Event), ledgerFileOf e = none ∨ ledgerFileOf e = some f :=
    fun e he => by cases he
  unfold runWithLedger
  cases hr : w.rulesFile with
  | none =>
    refine ⟨⟨[.readRules], rfl, ?_⟩, Or.inl ⟨_, rfl, rfl⟩⟩
    intro e he
    rw [List.mem_singleton] at he
    subst he
    exact Or.inl rfl
  | some rules =>
    dsimp only
    cases hs : seedFingerprints [] (w.readCsv f) with
    | error err =>
      exact ⟨⟨_, rfl, trace_names_ledger f [] [] hnil hnil2⟩, Or.inl ⟨_, rfl, rfl⟩⟩
    | ok seen =>
      dsimp only
      have hjson : ∀ e ∈ [Event.writeJson (w.readCsv f)],
          ledgerFileOf e = none ∨ ledgerFileOf e = some f := by
        intro e he
        rw [List.mem_singleton] at he
        subst he
        exact Or.inl rfl
      by_cases hb : (wechatBillFilesOf w.dir).length = 0
      · rw [if_pos hb]
        exact ⟨⟨_, rfl, trace_names_ledger f [] _ hnil hjson⟩, Or.inr (Or.inl ⟨rfl, rfl⟩)⟩
      · rw [if_neg hb]
        have hreads := processFiles_reads w rules (wechatBillFilesOf w.dir) ⟨seen, []⟩
        cases hp : processFiles w rules ⟨seen, []⟩ (wechatBillFilesOf w.dir) with
        | mk reads res =>
          rw [hp] at hreads
          have hw : reads.filter isWrite = [] := filter_isWrite_reads hreads
          have hl : ∀ e ∈ reads, ledgerFileOf e = none := ledgerFileOf_reads hreads
          cases res with
          | error err =>
            dsimp only
            refine ⟨⟨_, rfl, ?_⟩, Or.inl ⟨_, rfl, ?_⟩⟩
            · have := trace_names_ledger f reads [] hl hnil2
              simpa using this
            · simp [writesOf, List.filter_cons, isWrite, hw]
          | ok st =>
            dsimp only
            by_cases hn : st.newTransactions.length = 0
            · rw [if_pos hn]
              refine ⟨⟨_, rfl, ?_⟩, Or.inr (Or.inl ⟨rfl, ?_⟩)⟩
              · have := trace_names_ledger f reads _ hl hjson
                simpa using this
              · simp [writesOf, List.filter_cons, isWrite, hw]
            · rw [if_neg hn]
              cases hc : sortCombined (w.readCsv f) st.newTransactions with
              | error err =>
                dsimp only
                refine ⟨⟨_, rfl, ?_⟩, Or.inl ⟨_, rfl, ?_⟩⟩
                · have := trace_names_ledger f reads [] hl hnil2
                  simpa using this
                · simp [writesOf, List.filter_cons, isWrite, hw]
              | ok combined =>
                dsimp only
                have hout : ∀ e ∈ [Event.writeLedger f combined, Event.writeJson combined],
                    ledgerFileOf e = none ∨ ledgerFileOf e = some f := by
                  intro e he
                  simp only [List.mem_cons, List.mem_singleton, List.not_mem_nil,
                    or_false] at he
                  rcases he with rfl | rfl
                  · exact Or.inr rfl
                  · exact Or.inl rfl
                refine ⟨⟨_, rfl, ?_⟩,
                  Or.inr (Or.inr ⟨rfl, rules, seen, st, combined, rfl, rfl, ?_, ?_, hc, ?_⟩)⟩
                · have := trace_names_ledger f reads _ hl hout
                  simpa using this
                · rw [hp]
                · intro h0; exact hn (by simp [h0])
                · simp [writesOf, List.filter_cons, isWrite, hw]

theorem runWithLedger_no_bills (w : World) (f : String) (rules : List Rule)
    (seen : List String) (hr : w.rulesFile = some rules)
    (hs : seedFingerprints [] (w.readCsv f) = .ok seen)
    (hb : wechatBillFilesOf w.dir = []) :
    runWithLedger w f =
      ⟨[.foundLedger f, .readRules, .readLedger f, .writeJson (w.readCsv f)], .ok ()⟩ := by
  unfold runWithLedger
  rw [hr]
  dsimp only
  rw [hs]
  dsimp only
  rw [if_pos (by rw [hb]; rfl)]
  rfl

theorem runWithLedger_ingest_error (w : World) (f : String) (rules : List Rule)
    (seen : List String) (reads : List Event) (err : Err) (hr : w.rulesFile = some rules)
    (hs : seedFingerprints [] (w.readCsv f) = .ok seen)
    (hb : wechatBillFilesOf w.dir ≠ [])
    (hp : processFiles w rules ⟨seen, []⟩ (wechatBillFilesOf w.dir) = (reads, .error err)) :
    runWithLedger w f =
      ⟨[.foundLedger f, .readRules, .readLedger f] ++ reads, .error err⟩ := by
  unfold runWithLedger
  rw [hr]
  dsimp only
  rw [hs]
  dsimp only
  rw [if_neg (by simpa using hb), hp]

theorem runWithLedger_nothing_new (w : World) (f : String) (rules : List Rule)
    (seen : List String) (reads : List Event) (st : IngestState)
    (hr : w.rulesFile = some rules)
    (hs : seedFingerprints [] (w.readCsv f) = .ok seen)
    (hb : wechatBillFilesOf w.dir ≠ [])
    (hp : processFiles w rules ⟨seen, []⟩ (wechatBillFilesOf w.dir) = (reads, .ok st))
    (hn : st.newTransactions = []) :
    runWithLedger w f =
      ⟨[.foundLedger f, .readRules, .readLedger f] ++ reads ++ [.writeJson (w.readCsv f)],
        .ok ()⟩ := by
  unfold runWithLedger
  rw [hr]
  dsimp only
  rw [hs]
  dsimp only
  rw [if_neg (by simpa using hb), hp]
  dsimp only
  rw [if_pos (by rw [hn]; rfl)]

theorem runWithLedger_written (w : World) (f : String) (rules : List Rule)
    (seen : List String) (reads : List Event) (st : IngestState) (combined : List Record)
    (hr : w.rulesFile = some rules)
    (hs : seedFingerprints [] (w.readCsv f) = .ok seen)
    (hb : wechatBillFilesOf w.dir ≠ [])
    (hp : processFiles w rules ⟨seen, []⟩ (wechatBillFilesOf w.dir) = (reads, .ok st))
    (hn : st.newTransactions ≠ [])
    (hc : sortCombined (w.readCsv f) st.newTransactions = .ok combined) :
    runWithLedger w f =
      ⟨[.foundLedger f, .readRules, .readLedger f] ++ reads ++
          [.writeLedger f combined, .writeJson combined], .ok ()⟩ := by
  unfold runWithLedger
  rw [hr]
  dsimp only
  rw [hs]
  dsimp only
  rw [if_neg (by simpa using hb), hp]
  dsimp only
  rw [if_neg (by simpa using hn), hc]

theorem processLedger_single (w : World) (f : String) (hL : ledgerFilesOf w.dir = [f]) :
    processLedger w = runWithLedger w f := by
  unfold processLedger
  simp [hL]

theorem processLedger_none (w : World) (hL : ledgerFilesOf w.dir = []) :
    processLedger w = ⟨[], .error .noLedger⟩ := by
  unfold processLedger
  simp [hL]

theorem processLedger_many (w : World) (hL : 1 < (ledgerFilesOf w.dir).length) :
    processLedger w = ⟨[], .error .multipleLedgers⟩ := by
  unfold processLedger
  have h0 : (ledgerFilesOf w.dir).length ≠ 0 := by omega
  simp [h0, hL]

/-- A run that ends in an error has written neither the ledger file nor the
JSON snapshot. -/
theorem error_run_writes_nothing (w : World) (err : Err)
    (h : (processLedger w).result = .error err) : writesOf (processLedger w) = [] := by
  cases hL : ledgerFilesOf w.dir with
  | nil => rw [processLedger_none w hL]; rfl
  | cons f rest =>
    cases rest with
    | nil =>
      rw [processLedger_single w f hL] at h ⊢
      rcases (runWithLedger_shape w f).2 with ⟨_, _, hw⟩ | ⟨hok, _⟩ | ⟨hok, _⟩
      · exact hw
      · rw [hok] at h; cases h
      · rw [hok] at h; cases h
    | cons g rest =>
      rw [processLedger_many w (by rw [hL]; simp)]; rfl

/-- C10: the ledger location demands exactly one candidate. With `L` the file
names of the directory that start with `家庭账本` and end with `.csv`, the run
proceeds with a ledger file exactly when `L` has one element, and that element
is the only ledger file the run names; when `L` is empty the run fails with the
`no ledger found` error and when `L` has more than one element it fails with the
`multiple ledger files` error, in both cases with an empty trace: no export file
is read and neither the ledger nor the JSON snapshot is written. -/
theorem ledger_location (w : World) :
    (∀ f, f ∈ ledgerFilesOf w.dir ↔
      f ∈ w.dir ∧ LEDGER_FILE_PREFIX.data <+: f.data ∧ ".csv".data <:+ f.data) ∧
    ((∃ f, Event.foundLedger f ∈ (processLedger w).trace) ↔
      (ledgerFilesOf w.dir).length = 1) ∧
    (∀ f, ledgerFilesOf w.dir = [f] →
      ∃ rest, (processLedger w).trace = .foundLedger f :: rest ∧
        ∀ e ∈ rest, ledgerFileOf e = none ∨ ledgerFileOf e = some f) ∧
    (ledgerFilesOf w.dir = [] → processLedger w = ⟨[], .error .noLedger⟩) ∧
    (1 < (ledgerFilesOf w.dir).length → processLedger w = ⟨[], .error .multipleLedgers⟩) := by
  refine ⟨?_, ?_, ?_, processLedger_none w, processLedger_many w⟩
  · intro f
    simp [ledgerFilesOf, jsStartsWith, jsEndsWith, List.mem_filter]
  · cases hL : ledgerFilesOf w.dir with
    | nil => rw [processLedger_none w hL]; simp
    | cons f rest =>
      cases rest with
      | nil =>
        rw [processLedger_single w f hL]
        obtain ⟨rest, htrace, _⟩ := (runWithLedger_shape w f).1
        simp [htrace]
      | cons g rest =>
        rw [processLedger_many w (by rw [hL]; simp)]
        simp
  · intro f hL
    rw [processLedger_single w f hL]
    exact (runWithLedger_shape w f).1

/-! ## No-change path and fatal rows -/

theorem amount_of_rowFingerprint (longDate : JsVal → String) (row : Row) (fp : String)
    (h : rowFingerprint longDate row = .ok fp) : ∃ a, rowGet row "金额(元)" = .str a := by
  rcases rowGet_cases row "金额(元)" with hu | hs
  · simp [rowFingerprint, rowAmount, hu] at h
  · exact hs

theorem processRows_all_seen (longDate : JsVal → String) (rules : List Rule) :
    ∀ (rows : List Row) (st : IngestState),
      (∀ row ∈ rows, isExpense row = true →
        ∃ fp, rowFingerprint longDate row = .ok fp ∧ fp ∈ st.existingFingerprints) →
      processRows longDate rules st rows = .ok st := by
  intro rows
  induction rows with
  | nil => intro st _; rfl
  | cons row rest ih =>
    intro st h
    have hrest := ih st (fun r hr => h r (List.mem_cons_of_mem _ hr))
    by_cases hexp : isExpense row = true
    · obtain ⟨fp, hfp, hin⟩ := h row (List.mem_cons_self _ _) hexp
      obtain ⟨a, ha⟩ := amount_of_rowFingerprint longDate row fp hfp
      obtain ⟨m, fp2, _, hfp2, hseen, _⟩ := processRow_expense longDate rules st row a hexp ha
      have : fp2 = fp := by
        rw [hfp] at hfp2
        cases hfp2
        rfl
      subst this
      simp only [processRows, hseen hin]
      exact hrest
    · have hexp' : isExpense row = false := by simpa using hexp
      simp only [processRows, processRow_skip longDate rules st row hexp']
      exact hrest

theorem processRows_bad_row (longDate : JsVal → String) (rules : List Rule) :
    ∀ (rows : List Row) (st : IngestState) (bad : Row), bad ∈ rows →
      isExpense bad = true → rowGet bad "金额(元)" = .undefined →
      ∃ err, processRows longDate rules st rows = .error err := by
  intro rows
  induction rows with
  | nil => intro st bad hb; cases hb
  | cons row rest ih =>
    intro st bad hb hexp hno
    unfold processRows
    cases hrow : processRow longDate rules st row with
    | error err => exact ⟨err, rfl⟩
    | ok st1 =>
      rcases List.mem_cons.1 hb with heq | hmem
      · subst heq
        have := processRow_no_amount longDate rules st bad hexp
          (fun a ha => by rw [hno] at ha; cases ha)
        rw [this] at hrow
        cases hrow
      · exact ih st1 bad hmem hexp hno

/-- C7: the no-change path leaves the ledger alone. When the ledger file is
located, the rules are read and the existing rows are fingerprinted, and there
are zero export files, or every export row is filtered out (it is no expense
row) or deduplicated (its fingerprint is in the existing set), the run ends
normally, performs no write to the ledger file, and its only write is the JSON
snapshot with exactly the existing ledger rows, in their order and unchanged. -/
theorem no_change_leaves_ledger (w : World) (f : String) (rules : List Rule)
    (seen : List String) (hL : ledgerFilesOf w.dir = [f]) (hr : w.rulesFile = some rules)
    (hs : seedFingerprints [] (w.readCsv f) = .ok seen)
    (hnone : wechatBillFilesOf w.dir = [] ∨
      ∀ row ∈ ((wechatBillFilesOf w.dir).map w.readWeChatCsv).flatten,
        isExpense row = true →
          ∃ fp, rowFingerprint w.longDate row = .ok fp ∧ fp ∈ seen) :
    (processLedger w).result = .ok () ∧
    writesOf (processLedger w) = [.writeJson (w.readCsv f)] ∧
    (∀ g rows, Event.writeLedger g rows ∉ (processLedger w).trace) := by
  rw [processLedger_single w f hL]
  by_cases hb : wechatBillFilesOf w.dir = []
  · rw [runWithLedger_no_bills w f rules seen hr hs hb]
    refine ⟨rfl, rfl, ?_⟩
    intro g rows hmem
    simp at hmem
  · have hall : ∀ row ∈ ((wechatBillFilesOf w.dir).map w.readWeChatCsv).flatten,
        isExpense row = true →
          ∃ fp, rowFingerprint w.longDate row = .ok fp ∧ fp ∈ seen := by
      rcases hnone with h | h
      · exact absurd h hb
      · exact h
    have hres : (processFiles w rules ⟨seen, []⟩ (wechatBillFilesOf w.dir)).2
        = .ok ⟨seen, []⟩ := by
      rw [processFiles_result]
      exact processRows_all_seen w.longDate rules _ ⟨seen, []⟩ hall
    have hreads := processFiles_reads w rules (wechatBillFilesOf w.dir) ⟨seen, []⟩
    cases hp : processFiles w rules ⟨seen, []⟩ (wechatBillFilesOf w.dir) with
    | mk reads res =>
      rw [hp] at hres hreads
      dsimp only at hres
      subst hres
      rw [runWithLedger_nothing_new w f rules seen reads ⟨seen, []⟩ hr hs hb hp rfl]
      refine ⟨rfl, ?_, ?_⟩
      · simp [writesOf, List.filter_cons, isWrite, filter_isWrite_reads hreads]
      · intro g rows hmem
        simp only [List.cons_append, List.nil_append, List.mem_cons, List.mem_append,
          List.mem_singleton, List.not_mem_nil, or_false] at hmem
        rcases hmem with h | h | h | h | h
        · cases h
        · cases h
        · cases h
        · obtain ⟨x, hx⟩ := hreads _ h
          cases hx
        · cases h

theorem no_change_leaves_ledger_witness :
    ledgerFilesOf (exampleWorld [] [coffeeRecord] [coffeeRow, incomeRow]).dir
      = ["家庭账本.csv"] ∧
    (exampleWorld [] [coffeeRecord] [coffeeRow, incomeRow]).rulesFile = some [] ∧
    seedFingerprints [] ((exampleWorld [] [coffeeRecord] [coffeeRow, incomeRow]).readCsv
      "家庭账本.csv") = .ok ["2024-3-1|50.00|CoffeeShop"] ∧
    (∀ row ∈ ((wechatBillFilesOf (exampleWorld [] [coffeeRecord] [coffeeRow, incomeRow]).dir).map
        (exampleWorld [] [coffeeRecord] [coffeeRow, incomeRow]).readWeChatCsv).flatten,
      isExpense row = true →
        rowFingerprint exampleLongDate row = .ok "2024-3-1|50.00|CoffeeShop") ∧
    (processLedger (exampleWorld [] [coffeeRecord] [coffeeRow, incomeRow])).result = .ok () ∧
    writesOf (processLedger (exampleWorld [] [coffeeRecord] [coffeeRow, incomeRow]))
      = [.writeJson [coffeeRecord]] ∧
    (∀ g rows, Event.writeLedger g rows ∉
      (processLedger (exampleWorld [] [coffeeRecord] [coffeeRow, incomeRow])).trace) :=
  ⟨by decide, rfl, by decide!, by decide!,
   no_change_leaves_ledger (exampleWorld [] [coffeeRecord] [coffeeRow, incomeRow])
     "家庭账本.csv" [] ["2024-3-1|50.00|CoffeeShop"] (by decide) rfl (by decide!)
     (Or.inr fun row hrow hexp =>
       ⟨"2024-3-1|50.00|CoffeeShop",
        (by decide! : ∀ row ∈
            ((wechatBillFilesOf (exampleWorld [] [coffeeRecord] [coffeeRow, incomeRow]).dir).map
              (exampleWorld [] [coffeeRecord] [coffeeRow, incomeRow]).readWeChatCsv).flatten,
            isExpense row = true →
              rowFingerprint exampleLongDate row = .ok "2024-3-1|50.00|CoffeeShop")
          row hrow hexp,
        by decide⟩)⟩

/-- Counterexample to C9: an expense row whose amount text and date text are
both unparseable does not end the run in an error; a record with the amount
`NaN` and the date `Invalid Date` is built from it and written to the ledger
file and to the JSON snapshot. -/
theorem unparseable_row_is_written :
    processLedger (exampleWorld [] []
        [["not a date", "商户消费", "Shop", "Item", "支出", "abc"]])
      = ⟨[.foundLedger "家庭账本.csv", .readRules, .readLedger "家庭账本.csv",
          .readExport "wechat_bill.csv",
          .writeLedger "家庭账本.csv"
            [{ product := .str "Item", quantity := .str "",
               purchaseDate := .str "Invalid Date", amount := .num .nan,
               category := .str "待分类", note := .str "Shop", platform := .str "线下" }],
          .writeJson
            [{ product := .str "Item", quantity := .str "",
               purchaseDate := .str "Invalid Date", amount := .num .nan,
               category := .str "待分类", note := .str "Shop", platform := .str "线下" }]],
         .ok ()⟩ := by
  decide!

/-- C9, amended: only a missing amount is fatal. For every export containing
an expense row that has no `金额(元)` cell, the run ends in the error result and
performs no write to the ledger file or the JSON snapshot; an expense row whose
`金额(元)` cell is present never makes the loop body throw, whatever its amount
text or its `交易时间` text: there is no check that either is parseable. -/
theorem missing_amount_is_fatal (w : World) (file : String) (row : Row)
    (hfile : file ∈ wechatBillFilesOf w.dir) (hrow : row ∈ w.readWeChatCsv file)
    (hexp : isExpense row = true) (hno : rowGet row "金额(元)" = .undefined) :
    (∃ err, (processLedger w).result = .error err) ∧
    writesOf (processLedger w) = [] ∧
    (∀ (rules : List Rule) (st : IngestState) (other : Row) (a : String),
      isExpense other = true → rowGet other "金额(元)" = .str a →
        ∃ st1, processRow w.longDate rules st other = .ok st1) := by
  have herr : ∃ err, (processLedger w).result = .error err := by
    cases hL : ledgerFilesOf w.dir with
    | nil => rw [processLedger_none w hL]; exact ⟨_, rfl⟩
    | cons f rest =>
      cases rest with
      | cons g rest => rw [processLedger_many w (by rw [hL]; simp)]; exact ⟨_, rfl⟩
      | nil =>
        rw [processLedger_single w f hL]
        cases hr : w.rulesFile with
        | none => exact ⟨.rulesUnreadable, by simp [runWithLedger, hr]⟩
        | some rules =>
          cases hs : seedFingerprints [] (w.readCsv f) with
          | error err => exact ⟨err, by simp [runWithLedger, hr, hs]⟩
          | ok seen =>
            have hb : wechatBillFilesOf w.dir ≠ [] := List.ne_nil_of_mem hfile
            have hbad : row ∈ ((wechatBillFilesOf w.dir).map w.readWeChatCsv).flatten := by
              rw [List.mem_flatten]
              exact ⟨w.readWeChatCsv file, List.mem_map_of_mem _ hfile, hrow⟩
            obtain ⟨err, he⟩ := processRows_bad_row w.longDate rules _ ⟨seen, []⟩ row hbad
              hexp hno
            rw [← processFiles_result] at he
            cases hp : processFiles w rules ⟨seen, []⟩ (wechatBillFilesOf w.dir) with
            | mk reads res =>
              rw [hp] at he
              dsimp only at he
              subst he
              rw [runWithLedger_ingest_error w f rules seen reads err hr hs hb hp]
              exact ⟨err, rfl⟩
  obtain ⟨err, he⟩ := herr
  refine ⟨⟨err, he⟩, error_run_writes_nothing w err he, ?_⟩
  intro rules st other a ho ha
  obtain ⟨m, fp, _, _, hseen, hfresh⟩ := processRow_expense w.longDate rules st other a ho ha
  by_cases hin : fp ∈ st.existingFingerprints
  · exact ⟨_, hseen hin⟩
  · obtain ⟨tx, hrun, _⟩ := hfresh hin
    exact ⟨_, hrun⟩

theorem missing_amount_is_fatal_witness :
    "wechat_bill.csv" ∈ wechatBillFilesOf (exampleWorld [] [coffeeRecord] [coffeeRow, shortRow]).dir ∧
    shortRow ∈ (exampleWorld [] [coffeeRecord] [coffeeRow, shortRow]).readWeChatCsv
      "wechat_bill.csv" ∧
    isExpense shortRow = true ∧ rowGet shortRow "金额(元)" = .undefined ∧
    (∃ err, (processLedger (exampleWorld [] [coffeeRecord] [coffeeRow, shortRow])).result
      = .error err) ∧
    writesOf (processLedger (exampleWorld [] [coffeeRecord] [coffeeRow, shortRow])) = [] ∧
    (∀ (rules : List Rule) (st : IngestState) (other : Row) (a : String),
      isExpense other = true → rowGet other "金额(元)" = .str a →
        ∃ st1, processRow exampleLongDate rules st other = .ok st1) :=
  ⟨by decide, by decide, by decide, by decide,
   missing_amount_is_fatal (exampleWorld [] [coffeeRecord] [coffeeRow, shortRow])
     "wechat_bill.csv" shortRow (by decide) (by decide) (by decide) (by decide)⟩

/-! ## Running the pipeline twice -/

/-- C1 at its failing input: an export with one expense row whose `交易对方` is
empty, an empty ledger and no rules. The first run writes the ledger with the
one new record. The second run, over the same export and with that ledger as
the existing ledger, fingerprints the record through `备注 || 所购商品`, so with
the product where the row has the empty merchant; the row is not recognised and
the record is added a second time. -/
theorem rerun_adds_row_without_merchant_again :
    processLedger (exampleWorld [] [] [anonymousRow])
      = ⟨[.foundLedger "家庭账本.csv", .readRules, .readLedger "家庭账本.csv",
          .readExport "wechat_bill.csv", .writeLedger "家庭账本.csv" [anonymousTx],
          .writeJson [anonymousTx]], .ok ()⟩ ∧
    rowFingerprint exampleLongDate anonymousRow = .ok "2024-3-1|50.00|" ∧
    seedFingerprints [] [anonymousTx] = .ok ["2024-3-1|50.00|Coffee"] ∧
    processLedger (exampleWorld [] [anonymousTx] [anonymousRow])
      = ⟨[.foundLedger "家庭账本.csv", .readRules, .readLedger "家庭账本.csv",
          .readExport "wechat_bill.csv",
          .writeLedger "家庭账本.csv" [anonymousTx, anonymousTx],
          .writeJson [anonymousTx, anonymousTx]], .ok ()⟩ := by
  decide!

/-! ## Dates: the comparator against the calendar -/

theorem splitAtChar_eq_some (c : Char) :
    ∀ (l a b : List Char), splitAtChar c l = some (a, b) → l = a ++ c :: b ∧ c ∉ a := by
  intro l
  induction l with
  | nil => intro a b h; simp [splitAtChar] at h
  | cons x xs ih =>
    intro a b h
    unfold splitAtChar at h
    by_cases hx : x = c
    · rw [if_pos hx] at h
      cases h
      exact ⟨by simp [hx], by simp⟩
    · rw [if_neg hx] at h
      cases hs : splitAtChar c xs with
      | none => rw [hs] at h; cases h
      | some p =>
        obtain ⟨p1, p2⟩ := p
        rw [hs] at h
        cases h
        obtain ⟨h1, h2⟩ := ih p1 p2 hs
        refine ⟨by rw [h1]; rfl, ?_⟩
        intro hm
        rcases List.mem_cons.1 hm with h | h
        · exact hx h.symm
        · exact h2 h

theorem splitAtChar_append (c : Char) (b : List Char) :
    ∀ a : List Char, c ∉ a → splitAtChar c (a ++ c :: b) = some (a, b) := by
  intro a
  induction a with
  | nil => intro _; simp [splitAtChar]
  | cons x xs ih =>
    intro h
    have hx : x ≠ c := fun e => h (by simp [e])
    have hxs : c ∉ xs := fun e => h (List.mem_cons_of_mem _ e)
    simp [splitAtChar, hx, ih hxs]

theorem replaceFirstChars_single (c : Char) (rep post : List Char) :
    ∀ pre : List Char, c ∉ pre →
      replaceFirstChars [c] rep (pre ++ c :: post) = pre ++ rep ++ post := by
  intro pre
  induction pre with
  | nil => intro _; simp [replaceFirstChars, List.isPrefixOf]
  | cons x xs ih =>
    intro h
    have hx : c ≠ x := fun e => h (by simp [e])
    have hxs : c ∉ xs := fun e => h (List.mem_cons_of_mem _ e)
    simp [replaceFirstChars, List.isPrefixOf, hx, ih hxs]

theorem not_mem_of_all_digit {l : List Char} (h : l.all Char.isDigit = true) {c : Char}
    (hc : c.isDigit = false) : c ∉ l := by
  intro hm
  rw [List.all_eq_true] at h
  rw [h c hm] at hc
  cases hc

theorem isNumeral_all {n : Nat} {l : List Char} (h : isNumeral n l = true) :
    l.all Char.isDigit = true := by
  unfold isNumeral at h
  simp only [Bool.and_eq_true] at h
  exact h.2

theorem calendarDate_parts (s : String) (c : Nat × Nat × Nat)
    (h : calendarDate s = some c) :
    ∃ ys ms ds, s.data = ys ++ '年' :: (ms ++ '月' :: (ds ++ ['日'])) ∧
      ys.length = 4 ∧ isNumeral 4 ys = true ∧ isNumeral 2 ms = true ∧
      isNumeral 2 ds = true ∧ 1000 ≤ digitsVal ys ∧
      1 ≤ digitsVal ms ∧ digitsVal ms ≤ 12 ∧ 1 ≤ digitsVal ds ∧
      digitsVal ds ≤ daysInMonth (digitsVal ys) (digitsVal ms) ∧
      c = (digitsVal ys, digitsVal ms, digitsVal ds) := by
  unfold calendarDate at h
  cases h1 : splitAtChar '年' s.data with
  | none => rw [h1] at h; cases h
  | some p1 =>
    obtain ⟨ys, r⟩ := p1
    rw [h1] at h
    dsimp only at h
    cases h2 : splitAtChar '月' r with
    | none => rw [h2] at h; cases h
    | some p2 =>
      obtain ⟨ms, r2⟩ := p2
      rw [h2] at h
      dsimp only at h
      cases h3 : splitAtChar '日' r2 with
      | none => rw [h3] at h; cases h
      | some p3 =>
        obtain ⟨ds, tl⟩ := p3
        rw [h3] at h
        cases tl with
        | cons t ts => cases h
        | nil =>
          dsimp only at h
          split at h
          · rename_i hc
            simp only [Bool.and_eq_true, decide_eq_true_eq] at hc
            obtain ⟨⟨⟨⟨⟨⟨⟨⟨⟨⟨a1, a2⟩, a3⟩, a4⟩, a5⟩, _⟩, _⟩, a8⟩, a9⟩, a10⟩, a11⟩ := hc
            cases h
            obtain ⟨e1, _⟩ := splitAtChar_eq_some _ _ _ _ h1
            obtain ⟨e2, _⟩ := splitAtChar_eq_some _ _ _ _ h2
            obtain ⟨e3, _⟩ := splitAtChar_eq_some _ _ _ _ h3
            refine ⟨ys, ms, ds, ?_, a1, a2, a4, a5, a3, a8, a9, a10, a11, rfl⟩
            rw [e1, e2, e3]
          · cases h

theorem dashed_of_parts (s : String) (ys ms ds : List Char)
    (hs : s.data = ys ++ '年' :: (ms ++ '月' :: (ds ++ ['日'])))
    (hy : ys.all Char.isDigit = true) (hm : ms.all Char.isDigit = true)
    (hd : ds.all Char.isDigit = true) :
    (dashed s).data = ys ++ '-' :: (ms ++ '-' :: ds) := by
  have n1 : '年' ∉ ys := not_mem_of_all_digit hy (by decide)
  have n2 : '月' ∉ ys ++ '-' :: ms := by
    intro hmem
    rcases List.mem_append.1 hmem with h | h
    · exact not_mem_of_all_digit hy (by decide) h
    · rcases List.mem_cons.1 h with h | h
      · revert h; decide
      · exact not_mem_of_all_digit hm (by decide) h
  have n3 : '日' ∉ ys ++ '-' :: (ms ++ '-' :: ds) := by
    intro hmem
    rcases List.mem_append.1 hmem with h | h
    · exact not_mem_of_all_digit hy (by decide) h
    · rcases List.mem_cons.1 h with h | h
      · revert h; decide
      · rcases List.mem_append.1 h with h | h
        · exact not_mem_of_all_digit hm (by decide) h
        · rcases List.mem_cons.1 h with h | h
          · revert h; decide
          · exact not_mem_of_all_digit hd (by decide) h
  have e1 : replaceFirstChars ['年'] ['-'] s.data
      = ys ++ '-' :: (ms ++ '月' :: (ds ++ ['日'])) := by
    rw [hs, replaceFirstChars_single _ _ _ _ n1]; simp
  have e2 : replaceFirstChars ['月'] ['-'] (ys ++ '-' :: (ms ++ '月' :: (ds ++ ['日'])))
      = ys ++ '-' :: (ms ++ '-' :: (ds ++ ['日'])) := by
    have := replaceFirstChars_single '月' ['-'] (ds ++ ['日']) (ys ++ '-' :: ms) n2
    simpa using this
  have e3 : replaceFirstChars ['日'] [] (ys ++ '-' :: (ms ++ '-' :: (ds ++ ['日'])))
      = ys ++ '-' :: (ms ++ '-' :: ds) := by
    have := replaceFirstChars_single '日' [] [] (ys ++ '-' :: (ms ++ '-' :: ds)) n3
    simpa using this
  show replaceFirstChars ['日'] []
      (replaceFirstChars ['月'] ['-'] (replaceFirstChars ['年'] ['-'] s.data)) = _
  rw [e1, e2, e3]

theorem dateValue_of_calendarDate (s : String) (c : Nat × Nat × Nat)
    (h : calendarDate s = some c) :
    dateValue (dashed s) = some (makeDay c.1 c.2.1 c.2.2 * 86400000) := by
  obtain ⟨ys, ms, ds, hs, a1, a2, a4, a5, a3, a8, a9, a10, a11, rfl⟩ :=
    calendarDate_parts s c h
  have hy := isNumeral_all a2
  have hm := isNumeral_all a4
  have hd := isNumeral_all a5
  have hdash := dashed_of_parts s ys ms ds hs hy hm hd
  have s1 : splitAtChar '-' (ys ++ '-' :: (ms ++ '-' :: ds)) = some (ys, ms ++ '-' :: ds) :=
    splitAtChar_append _ _ _ (not_mem_of_all_digit hy (by decide))
  have s2 : splitAtChar '-' (ms ++ '-' :: ds) = some (ms, ds) :=
    splitAtChar_append _ _ _ (not_mem_of_all_digit hm (by decide))
  have h31 : digitsVal ds ≤ 31 := by
    have : daysInMonth (digitsVal ys) (digitsVal ms) ≤ 31 := by
      unfold daysInMonth; split <;> try split
      all_goals omega
    omega
  unfold dateValue
  rw [hdash, s1]
  dsimp only
  rw [s2]
  dsimp only
  simp [a1, a2, a4, a5, a3, a8, a9, a10, h31]

theorem dayFromYear_succ (y : Nat) :
    dayFromYear (y + 1) = dayFromYear y + 365 + (if isLeap y then 1 else 0) := by
  unfold dayFromYear isLeap
  by_cases h4 : y % 4 = 0 <;> by_cases h100 : y % 100 = 0 <;> by_cases h400 : y % 400 = 0 <;>
    simp [h4, h100, h400] <;> omega

theorem dayFromYear_mono {y z : Nat} (h : y ≤ z) : dayFromYear y ≤ dayFromYear z := by
  unfold dayFromYear
  omega

theorem ordinal_le (y m d : Nat) (hm1 : 1 ≤ m) (hm : m ≤ 12) (hd : d ≤ daysInMonth y m) :
    daysBeforeMonth y m + d ≤ 365 + (if isLeap y then 1 else 0) := by
  unfold daysBeforeMonth daysInMonth at *
  cases hb : isLeap y <;> interval_cases m <;> simp_all <;> omega

theorem daysBeforeMonth_lt (y m n : Nat) (hm1 : 1 ≤ m) (hmn : m < n) (hn : n ≤ 12) :
    daysBeforeMonth y m + daysInMonth y m ≤ daysBeforeMonth y n := by
  have hm : m ≤ 11 := by omega
  unfold daysBeforeMonth daysInMonth
  cases hb : isLeap y <;> interval_cases m <;> interval_cases n <;> simp_all

theorem makeDay_lt (y m d y2 m2 d2 : Nat) (hm1 : 1 ≤ m) (hm : m ≤ 12) (_hd1 : 1 ≤ d)
    (hd : d ≤ daysInMonth y m) (hn1 : 1 ≤ m2) (hn : m2 ≤ 12) (he1 : 1 ≤ d2)
    (h : y < y2 ∨ (y = y2 ∧ (m < m2 ∨ (m = m2 ∧ d < d2)))) :
    makeDay y m d < makeDay y2 m2 d2 := by
  unfold makeDay
  rcases h with h | ⟨rfl, h | ⟨rfl, h⟩⟩
  · have h1 := ordinal_le y m d hm1 hm hd
    have h2 := dayFromYear_succ y
    have h3 : dayFromYear (y + 1) ≤ dayFromYear y2 := dayFromYear_mono h
    split at h1 <;> simp_all <;> omega
  · have := daysBeforeMonth_lt y m m2 hm1 h hn
    omega
  · omega


theorem calendarDate_range (s : String) (c : Nat × Nat × Nat)
    (h : calendarDate s = some c) :
    1 ≤ c.2.1 ∧ c.2.1 ≤ 12 ∧ 1 ≤ c.2.2 ∧ c.2.2 ≤ daysInMonth c.1 c.2.1 := by
  obtain ⟨ys, ms, ds, _, _, _, _, _, _, a8, a9, a10, a11, rfl⟩ := calendarDate_parts s c h
  exact ⟨a8, a9, a10, a11⟩

theorem makeDay_le_iff (x y : Nat × Nat × Nat)
    (hx : 1 ≤ x.2.1 ∧ x.2.1 ≤ 12 ∧ 1 ≤ x.2.2 ∧ x.2.2 ≤ daysInMonth x.1 x.2.1)
    (hy : 1 ≤ y.2.1 ∧ y.2.1 ≤ 12 ∧ 1 ≤ y.2.2 ∧ y.2.2 ≤ daysInMonth y.1 y.2.1) :
    makeDay x.1 x.2.1 x.2.2 ≤ makeDay y.1 y.2.1 y.2.2 ↔ calLe x y := by
  obtain ⟨x1, x2, x3⟩ := x
  obtain ⟨y1, y2, y3⟩ := y
  dsimp only at hx hy ⊢
  unfold calLe
  dsimp only
  constructor
  · intro hle
    by_contra hn
    have hlt : y1 < x1 ∨ (y1 = x1 ∧ (y2 < x2 ∨ (y2 = x2 ∧ y3 < x3))) := by omega
    have := makeDay_lt y1 y2 y3 x1 x2 x3 hy.1 hy.2.1 hy.2.2.1 hy.2.2.2 hx.1 hx.2.1 hx.2.2.1 hlt
    omega
  · intro hle
    by_cases heq : x1 = y1 ∧ x2 = y2 ∧ x3 = y3
    · obtain ⟨rfl, rfl, rfl⟩ := heq
      exact le_refl _
    · have hlt : x1 < y1 ∨ (x1 = y1 ∧ (x2 < y2 ∨ (x2 = y2 ∧ x3 < y3))) := by omega
      exact le_of_lt
        (makeDay_lt x1 x2 x3 y1 y2 y3 hx.1 hx.2.1 hx.2.2.1 hx.2.2.2 hy.1 hy.2.1 hy.2.2.1 hlt)

theorem dateKey_of_dateOf (r : Record) (c : Nat × Nat × Nat) (h : dateOf r = some c) :
    dateKey r = some (makeDay c.1 c.2.1 c.2.2 * 86400000) ∧
    1 ≤ c.2.1 ∧ c.2.1 ≤ 12 ∧ 1 ≤ c.2.2 ∧ c.2.2 ≤ daysInMonth c.1 c.2.1 := by
  unfold dateOf at h
  unfold dateKey
  cases hp : r.purchaseDate with
  | undefined => rw [hp] at h; cases h
  | num n => rw [hp] at h; cases h
  | str d =>
    rw [hp] at h
    exact ⟨dateValue_of_calendarDate d c h, calendarDate_range d c h⟩

theorem notAfter_iff (a b : Record) (x y : Nat × Nat × Nat) (ha : dateOf a = some x)
    (hb : dateOf b = some y) : notAfter a b ↔ calLe x y := by
  obtain ⟨ka, ra⟩ := dateKey_of_dateOf a x ha
  obtain ⟨kb, rb⟩ := dateKey_of_dateOf b y hb
  unfold notAfter compareDates
  rw [ka, kb]
  dsimp only
  rw [← makeDay_le_iff x y ra rb]
  omega

/-! ## Merger and sorter -/

theorem orderedInsert_congr (r s : Record → Record → Prop) [DecidableRel r] [DecidableRel s]
    (a : Record) :
    ∀ l : List Record, (∀ b ∈ l, r a b ↔ s a b) →
      List.orderedInsert r a l = List.orderedInsert s a l := by
  intro l
  induction l with
  | nil => intro _; rfl
  | cons b t ih =>
    intro h
    have hb := h b (List.mem_cons_self _ _)
    have ht := ih (fun c hc => h c (List.mem_cons_of_mem _ hc))
    by_cases hr : r a b
    · simp [List.orderedInsert, hr, hb.1 hr]
    · have hs : ¬ s a b := fun hs => hr (hb.2 hs)
      simp [List.orderedInsert, hr, hs, ht]

theorem insertionSort_congr (r s : Record → Record → Prop) [DecidableRel r] [DecidableRel s] :
    ∀ l : List Record, (∀ a ∈ l, ∀ b ∈ l, r a b ↔ s a b) →
      List.insertionSort r l = List.insertionSort s l := by
  intro l
  induction l with
  | nil => intro _; rfl
  | cons a t ih =>
    intro h
    have ht := ih (fun x hx y hy => h x (List.mem_cons_of_mem _ hx) y (List.mem_cons_of_mem _ hy))
    simp only [List.insertionSort]
    rw [ht]
    apply orderedInsert_congr
    intro b hb
    rw [List.mem_insertionSort] at hb
    exact h a (List.mem_cons_self _ _) b (List.mem_cons_of_mem _ hb)

theorem jsSort_perm (l : List Record) : (jsSort l).Perm l :=
  List.perm_insertionSort _ l

theorem dateNotAfter_iff (a b : Record) (x y : Nat × Nat × Nat) (ha : dateOf a = some x)
    (hb : dateOf b = some y) : dateNotAfter a b ↔ calLe x y := by
  unfold dateNotAfter
  rw [ha, hb]

theorem calLe_total (x y : Nat × Nat × Nat) : calLe x y ∨ calLe y x := by
  unfold calLe; omega

theorem calLe_trans {x y z : Nat × Nat × Nat} (h1 : calLe x y) (h2 : calLe y z) :
    calLe x z := by
  unfold calLe at *; omega

theorem calLe_refl (x : Nat × Nat × Nat) : calLe x x := by
  unfold calLe; omega

/-- With long-form dates throughout, the sorted array is non-decreasing by
calendar date. -/
theorem jsSort_sorted (l : List Record) (hl : ∀ r ∈ l, (dateOf r).isSome = true) :
    (jsSort l).Pairwise dateNotAfter := by
  unfold jsSort
  induction l with
  | nil => simp
  | cons a t ih =>
    have ht := ih (fun r hr => hl r (List.mem_cons_of_mem _ hr))
    simp only [List.insertionSort]
    have hmem : ∀ b ∈ List.insertionSort notAfter t, (dateOf b).isSome = true := by
      intro b hb
      rw [List.mem_insertionSort] at hb
      exact hl b (List.mem_cons_of_mem _ hb)
    have ha := hl a (List.mem_cons_self _ _)
    generalize List.insertionSort notAfter t = s at ht hmem
    induction s with
    | nil => simp [List.orderedInsert]
    | cons b u ihu =>
      obtain ⟨x, hx⟩ := Option.isSome_iff_exists.1 ha
      obtain ⟨y, hy⟩ := Option.isSome_iff_exists.1 (hmem b (List.mem_cons_self _ _))
      have hu : ∀ c ∈ u, (dateOf c).isSome = true :=
        fun c hc => hmem c (List.mem_cons_of_mem _ hc)
      rw [List.pairwise_cons] at ht
      by_cases hab : notAfter a b
      · simp only [List.orderedInsert, hab, if_true]
        rw [List.pairwise_cons]
        refine ⟨?_, List.pairwise_cons.2 ht⟩
        intro c hc
        rcases List.mem_cons.1 hc with rfl | hc
        · exact (dateNotAfter_iff a c x y hx hy).2 ((notAfter_iff a c x y hx hy).1 hab)
        · obtain ⟨z, hz⟩ := Option.isSome_iff_exists.1 (hu c hc)
          have h1 := (notAfter_iff a b x y hx hy).1 hab
          have h2 := (dateNotAfter_iff b c y z hy hz).1 (ht.1 c hc)
          exact (dateNotAfter_iff a c x z hx hz).2 (calLe_trans h1 h2)
      · simp only [List.orderedInsert, hab, if_false]
        rw [List.pairwise_cons]
        refine ⟨?_, ihu ht.2 hu⟩
        intro c hc
        rw [List.mem_orderedInsert] at hc
        rcases hc with rfl | hc
        · have hba : calLe y x := by
            rcases calLe_total x y with h | h
            · exact absurd ((notAfter_iff c b x y hx hy).2 h) hab
            · exact h
          exact (dateNotAfter_iff b c y x hy hx).2 hba
        · exact ht.1 c hc

/-- Records of one calendar date keep their relative order in the sorted array. -/
theorem jsSort_stable (l : List Record) (c : Nat × Nat × Nat) :
    (jsSort l).filter (fun r => decide (dateOf r = some c))
      = l.filter (fun r => decide (dateOf r = some c)) := by
  have hpair : (l.filter (fun r => decide (dateOf r = some c))).Pairwise notAfter := by
    rw [List.pairwise_iff_forall_sublist]
    intro a b hab
    have ha : a ∈ l.filter (fun r => decide (dateOf r = some c)) :=
      hab.subset (by simp)
    have hb : b ∈ l.filter (fun r => decide (dateOf r = some c)) :=
      hab.subset (by simp)
    rw [List.mem_filter] at ha hb
    exact (notAfter_iff a b c c (of_decide_eq_true ha.2) (of_decide_eq_true hb.2)).2
      (calLe_refl c)
  have hsub : List.Sublist (l.filter (fun r => decide (dateOf r = some c))) (jsSort l) :=
    List.sublist_insertionSort hpair (List.filter_sublist l)
  have hsub2 := hsub.filter (fun r => decide (dateOf r = some c))
  rw [List.filter_filter] at hsub2
  simp only [Bool.and_self] at hsub2
  have hlen : ((jsSort l).filter (fun r => decide (dateOf r = some c))).length
      = (l.filter (fun r => decide (dateOf r = some c))).length :=
    ((jsSort_perm l).filter _).length_eq
  exact (hsub2.eq_of_length hlen.symm).symm

theorem all_str_of_dateOf (l : List Record) (hl : ∀ r ∈ l, (dateOf r).isSome = true) :
    l.all (fun r => match r.purchaseDate with | .str _ => true | _ => false) = true := by
  rw [List.all_eq_true]
  intro r hr
  have h := hl r hr
  unfold dateOf at h
  cases hp : r.purchaseDate with
  | undefined => rw [hp] at h; cases h
  | num n => rw [hp] at h; cases h
  | str d => rfl

theorem sortCombined_long_form (existingLedger newTransactions : List Record)
    (hl : ∀ r ∈ existingLedger ++ newTransactions, (dateOf r).isSome = true) :
    sortCombined existingLedger newTransactions
      = .ok (jsSort (existingLedger ++ newTransactions)) := by
  unfold sortCombined
  dsimp only
  by_cases h1 : (existingLedger ++ newTransactions).length ≤ 1
  · rw [if_pos h1]
    congr 1
    cases hc : existingLedger ++ newTransactions with
    | nil => rfl
    | cons a t =>
      cases t with
      | nil => rfl
      | cons b u => rw [hc] at h1; simp at h1
  · rw [if_neg h1, if_pos (all_str_of_dateOf _ hl)]

/-- C5: sort correctness. For every existing ledger and list of new
transactions whose `购买日期` fields are all in the long form `Y年M月D日`, the
sort ends normally and the combined ledger it returns, which is the one
written, is non-decreasing by calendar date: every earlier record's date is not
after any later record's, in particular for every two adjacent records. -/
theorem sort_correctness (existingLedger newTransactions : List Record)
    (hlong : ∀ r ∈ existingLedger ++ newTransactions, (dateOf r).isSome = true) :
    ∃ combined, sortCombined existingLedger newTransactions = .ok combined ∧
      combined.Chain' dateNotAfter ∧ combined.Pairwise dateNotAfter := by
  refine ⟨_, sortCombined_long_form _ _ hlong, ?_, jsSort_sorted _ hlong⟩
  exact List.Pairwise.chain' (jsSort_sorted _ hlong)

theorem sort_correctness_witness :
    (∀ r ∈ [recordOn "2024年3月1日" "a", recordOn "2024年12月25日" "b"] ++
        [recordOn "2024年3月2日" "c", recordOn "2024年3月1日" "d", recordOn "2023年12月31日" "e"],
      (dateOf r).isSome = true) ∧
    ∃ combined,
      sortCombined [recordOn "2024年3月1日" "a", recordOn "2024年12月25日" "b"]
        [recordOn "2024年3月2日" "c", recordOn "2024年3月1日" "d", recordOn "2023年12月31日" "e"]
        = .ok combined ∧
      combined.Chain' dateNotAfter ∧ combined.Pairwise dateNotAfter :=
  ⟨by decide!, sort_correctness _ _ (by decide!)⟩

/-- C6: the merge is a stable reordering. For every existing ledger and list
of new transactions with valid long-form dates, the sorted combined ledger is a
permutation of the concatenation `existing ++ new`, so every record is kept
with all its fields, the `购买日期` text included; the records of any one
calendar date appear in the same relative order as in that concatenation; and
an existing record precedes a new record of the same date. -/
theorem merge_is_stable_reordering (existingLedger newTransactions : List Record)
    (hlong : ∀ r ∈ existingLedger ++ newTransactions, (dateOf r).isSome = true) :
    ∃ combined, sortCombined existingLedger newTransactions = .ok combined ∧
      combined.Perm (existingLedger ++ newTransactions) ∧
      (∀ c, combined.filter (fun r => decide (dateOf r = some c))
        = (existingLedger ++ newTransactions).filter (fun r => decide (dateOf r = some c))) ∧
      (∀ a ∈ existingLedger, ∀ b ∈ newTransactions, dateOf a = dateOf b →
        List.Sublist [a, b] combined) := by
  refine ⟨_, sortCombined_long_form _ _ hlong, jsSort_perm _, jsSort_stable _, ?_⟩
  intro a ha b hb hab
  have hsub : List.Sublist [a, b] (existingLedger ++ newTransactions) :=
    List.Sublist.append (List.singleton_sublist.2 ha) (List.singleton_sublist.2 hb)
  obtain ⟨x, hx⟩ := Option.isSome_iff_exists.1
    (hlong a (List.mem_append_left _ ha))
  have hy : dateOf b = some x := by rw [← hab, hx]
  exact List.pair_sublist_insertionSort ((notAfter_iff a b x x hx hy).2 (calLe_refl x)) hsub

theorem merge_is_stable_reordering_witness :
    (∀ r ∈ [recordOn "2024年3月2日" "a", recordOn "2024年3月1日" "b"] ++
        [recordOn "2024年3月1日" "c", recordOn "2024年3月2日" "d", recordOn "2024年3月1日" "e"],
      (dateOf r).isSome = true) ∧
    ∃ combined,
      sortCombined [recordOn "2024年3月2日" "a", recordOn "2024年3月1日" "b"]
        [recordOn "2024年3月1日" "c", recordOn "2024年3月2日" "d", recordOn "2024年3月1日" "e"]
        = .ok combined ∧
      combined.Perm ([recordOn "2024年3月2日" "a", recordOn "2024年3月1日" "b"] ++
        [recordOn "2024年3月1日" "c", recordOn "2024年3月2日" "d", recordOn "2024年3月1日" "e"]) ∧
      (∀ c, combined.filter (fun r => decide (dateOf r = some c))
        = ([recordOn "2024年3月2日" "a", recordOn "2024年3月1日" "b"] ++
            [recordOn "2024年3月1日" "c", recordOn "2024年3月2日" "d",
             recordOn "2024年3月1日" "e"]).filter (fun r => decide (dateOf r = some c))) ∧
      (∀ a ∈ [recordOn "2024年3月2日" "a", recordOn "2024年3月1日" "b"],
        ∀ b ∈ [recordOn "2024年3月1日" "c", recordOn "2024年3月2日" "d",
               recordOn "2024年3月1日" "e"],
        dateOf a = dateOf b → List.Sublist [a, b] combined) :=
  ⟨by decide!, merge_is_stable_reordering _ _ (by decide!)⟩

/-- The sort of the worked example, evaluated: ascending by date, and within
one date in the order of the concatenation. -/
theorem sortCombined_example :
    sortCombined [recordOn "2024年3月2日" "a", recordOn "2024年3月1日" "b"]
        [recordOn "2024年3月1日" "c", recordOn "2024年3月2日" "d", recordOn "2024年3月1日" "e"]
      = .ok [recordOn "2024年3月1日" "b", recordOn "2024年3月1日" "c",
             recordOn "2024年3月1日" "e", recordOn "2024年3月2日" "a",
             recordOn "2024年3月2日" "d"] := by
  decide!

/-- The ledger file is only ever written with the result of the sort of the
existing rows and the new transactions. -/
theorem written_ledger_is_sorted_merge (w : World) (g : String) (rows : List Record)
    (h : Event.writeLedger g rows ∈ (processLedger w).trace) :
    ∃ rules seen st, ledgerFilesOf w.dir = [g] ∧ w.rulesFile = some rules ∧
      seedFingerprints [] (w.readCsv g) = .ok seen ∧
      (processFiles w rules ⟨seen, []⟩ (wechatBillFilesOf w.dir)).2 = .ok st ∧
      st.newTransactions ≠ [] ∧
      sortCombined (w.readCsv g) st.newTransactions = .ok rows := by
  have hw : Event.writeLedger g rows ∈ writesOf (processLedger w) := by
    unfold writesOf
    rw [List.mem_filter]
    exact ⟨h, rfl⟩
  cases hL : ledgerFilesOf w.dir with
  | nil => rw [processLedger_none w hL] at hw; simp [writesOf] at hw
  | cons f rest =>
    cases rest with
    | cons f2 rest => rw [processLedger_many w (by rw [hL]; simp)] at hw; simp [writesOf] at hw
    | nil =>
      rw [processLedger_single w f hL] at hw
      rcases (runWithLedger_shape w f).2 with ⟨_, _, h0⟩ | ⟨_, h1⟩ | ⟨_, rules, seen, st,
        combined, hr, hs, hp, hn, hc, h2⟩
      · rw [h0] at hw; cases hw
      · rw [h1] at hw; simp at hw
      · rw [h2] at hw
        simp only [List.mem_cons, List.mem_singleton, List.not_mem_nil, or_false] at hw
        rcases hw with hw | hw
        · cases hw
          exact ⟨rules, seen, st, rfl, hr, hs, hp, hn, hc⟩
        · cases hw

/-! ## Running the pipeline twice: where it does recognise its own records -/

theorem mem_setAdd (set : List String) (x y : String) :
    x ∈ setAdd set y ↔ x ∈ set ∨ x = y := by
  unfold setAdd
  by_cases h : y ∈ set
  · rw [if_pos h]
    constructor
    · exact Or.inl
    · rintro (h1 | h1)
      · exact h1
      · rw [h1]; exact h
  · rw [if_neg h]
    simp

theorem seedFingerprints_ok :
    ∀ (rows : List Record) (set : List String),
      (∀ r ∈ rows, ∃ fp, seedKey r = .ok fp) →
      ∃ out, seedFingerprints set rows = .ok out ∧
        ∀ x, x ∈ out ↔ x ∈ set ∨ ∃ r ∈ rows, seedKey r = .ok x := by
  intro rows
  induction rows with
  | nil => intro set _; exact ⟨set, rfl, by simp⟩
  | cons r rest ih =>
    intro set h
    obtain ⟨fp, hfp⟩ := h r (List.mem_cons_self _ _)
    obtain ⟨out, hout, hmem⟩ := ih (setAdd set fp) (fun q hq => h q (List.mem_cons_of_mem _ hq))
    have hfp' : createFingerprint r.purchaseDate r.amount
        (jsOr (jsOr r.note r.product) (.str "")) = .ok fp := hfp
    refine ⟨out, ?_, ?_⟩
    · simp only [seedFingerprints, hfp']
      exact hout
    · intro x
      rw [hmem x, mem_setAdd]
      constructor
      · rintro ((h1 | h1) | ⟨q, hq, hk⟩)
        · exact Or.inl h1
        · exact Or.inr ⟨r, List.mem_cons_self _ _, by rw [h1]; exact hfp⟩
        · exact Or.inr ⟨q, List.mem_cons_of_mem _ hq, hk⟩
      · rintro (h1 | ⟨q, hq, hk⟩)
        · exact Or.inl (Or.inl h1)
        · rcases List.mem_cons.1 hq with rfl | hq
          · rw [hfp] at hk
            cases hk
            exact Or.inl (Or.inr rfl)
          · exact Or.inr ⟨q, hq, hk⟩

theorem seedFingerprints_keys :
    ∀ (rows : List Record) (set out : List String),
      seedFingerprints set rows = .ok out → ∀ r ∈ rows, ∃ fp, seedKey r = .ok fp := by
  intro rows
  induction rows with
  | nil => intro set out _ r hr; cases hr
  | cons q rest ih =>
    intro set out h r hr
    cases hk : seedKey q with
    | error e =>
      have hk' : createFingerprint q.purchaseDate q.amount
          (jsOr (jsOr q.note q.product) (.str "")) = .error e := hk
      simp [seedFingerprints, hk'] at h
    | ok fp =>
      have hk' : createFingerprint q.purchaseDate q.amount
          (jsOr (jsOr q.note q.product) (.str "")) = .ok fp := hk
      rcases List.mem_cons.1 hr with rfl | hr
      · exact ⟨fp, hk⟩
      · simp only [seedFingerprints, hk'] at h
        exact ih _ out h r hr

/-- Every new transaction built from rows with a non-empty counterparty has
that counterparty as its `备注`. -/
theorem processRows_notes (longDate : JsVal → String) (rules : List Rule) :
    ∀ (rows : List Row) (st out : IngestState),
      (∀ row ∈ rows, isExpense row = true → rowGet row "交易对方" ≠ .str "") →
      (∀ tx ∈ st.newTransactions, ∃ m, tx.note = .str m ∧ m ≠ "") →
      processRows longDate rules st rows = .ok out →
      ∀ tx ∈ out.newTransactions, ∃ m, tx.note = .str m ∧ m ≠ "" := by
  intro rows
  induction rows with
  | nil =>
    intro st out _ hst h
    simp only [processRows] at h
    cases h
    exact hst
  | cons row rest ih =>
    intro st out hm hst h
    have hrest : ∀ r ∈ rest, isExpense r = true → rowGet r "交易对方" ≠ .str "" :=
      fun r hr => hm r (List.mem_cons_of_mem _ hr)
    unfold processRows at h
    cases hrow : processRow longDate rules st row with
    | error e => rw [hrow] at h; cases h
    | ok st1 =>
      rw [hrow] at h
      dsimp only at h
      refine ih st1 out hrest ?_ h
      by_cases hexp : isExpense row = true
      · rcases rowGet_cases row "金额(元)" with hu | ⟨a, ha⟩
        · rw [processRow_no_amount longDate rules st row hexp
            (fun a ha => by rw [hu] at ha; cases ha)] at hrow
          cases hrow
        · obtain ⟨m, fp, hmer, _, hseen, hfresh⟩ :=
            processRow_expense longDate rules st row a hexp ha
          by_cases hin : fp ∈ st.existingFingerprints
          · rw [hseen hin] at hrow
            cases hrow
            exact hst
          · obtain ⟨tx, hrun, _, _, _, hnote, _⟩ := hfresh hin
            rw [hrun] at hrow
            cases hrow
            intro t ht
            rcases List.mem_append.1 ht with ht | ht
            · exact hst t ht
            · rw [List.mem_singleton] at ht
              subst ht
              refine ⟨m, hnote, ?_⟩
              intro hempty
              exact hm row (List.mem_cons_self _ _) hexp (by rw [hmer, hempty])
      · have hexp' : isExpense row = false := by simpa using hexp
        rw [processRow_skip longDate rules st row hexp'] at hrow
        cases hrow
        exact hst

theorem seedKey_of_note (tx : Record) (m : String) (hn : tx.note = .str m) (hm : m ≠ "") :
    seedKey tx = txFingerprint tx := by
  unfold seedKey txFingerprint
  have : jsOr (jsOr tx.note tx.product) (.str "") = tx.note := by
    simp [jsOr, hn, truthy, hm]
  rw [this]

theorem forall₂_right {α β : Type} {R : α → β → Prop} :
    ∀ {l1 : List α} {l2 : List β}, List.Forall₂ R l1 l2 → ∀ b ∈ l2, ∃ a ∈ l1, R a b := by
  intro l1 l2 h
  induction h with
  | nil => intro b hb; cases hb
  | cons hab _ ih =>
    intro b hb
    rcases List.mem_cons.1 hb with rfl | hb
    · exact ⟨_, List.mem_cons_self _ _, hab⟩
    · obtain ⟨a, ha, hr⟩ := ih b hb
      exact ⟨a, List.mem_cons_of_mem _ ha, hr⟩

theorem forall₂_left {α β : Type} {R : α → β → Prop} :
    ∀ {l1 : List α} {l2 : List β}, List.Forall₂ R l1 l2 → ∀ a ∈ l1, ∃ b ∈ l2, R a b := by
  intro l1 l2 h
  induction h with
  | nil => intro a ha; cases ha
  | cons hab _ ih =>
    intro a ha
    rcases List.mem_cons.1 ha with rfl | ha
    · exact ⟨_, List.mem_cons_self _ _, hab⟩
    · obtain ⟨b, hb, hr⟩ := ih a ha
      exact ⟨b, List.mem_cons_of_mem _ hb, hr⟩

/-- Dedup idempotence where it holds: when every expense row of the export has
a non-empty counterparty and a first run ends normally, a second run over the
same export, with any reordering of `existing ++ new` as its existing ledger,
fingerprints that ledger without error and produces zero new transactions. -/
theorem rerun_adds_nothing_with_merchants (w : World) (rules : List Rule)
    (existingLedger combined : List Record) (seen files : List String) (st : IngestState)
    (hs : seedFingerprints [] existingLedger = .ok seen)
    (hp : (processFiles w rules ⟨seen, []⟩ files).2 = .ok st)
    (hperm : combined.Perm (existingLedger ++ st.newTransactions))
    (hm : ∀ row ∈ (files.map w.readWeChatCsv).flatten,
      isExpense row = true → rowGet row "交易对方" ≠ .str "") :
    ∃ seen2, seedFingerprints [] combined = .ok seen2 ∧
      (processFiles w rules ⟨seen2, []⟩ files).2 = .ok ⟨seen2, []⟩ := by
  rw [processFiles_result] at hp
  have hwf : ∀ row ∈ (files.map w.readWeChatCsv).flatten,
      isExpense row = true → rowGet row "金额(元)" ≠ .undefined := by
    intro row hrow hexp hno
    obtain ⟨e, he⟩ := processRows_bad_row w.longDate rules _ ⟨seen, []⟩ row hrow hexp hno
    rw [he] at hp
    cases hp
  obtain ⟨fps, txs, hfps, hrun, htxs⟩ :=
    processRows_spec w.longDate rules _ ⟨seen, []⟩ hwf
  rw [hrun] at hp
  cases hp
  simp only [List.nil_append] at htxs hperm
  have hnotes := processRows_notes w.longDate rules _ ⟨seen, []⟩ _ hm
    (fun tx htx => by cases htx) hrun
  simp only [List.nil_append] at hnotes
  have hseedOld := seedFingerprints_keys existingLedger [] seen hs
  obtain ⟨seenOld, hOld, hmemOld⟩ := seedFingerprints_ok existingLedger [] hseedOld
  rw [hs] at hOld
  cases hOld
  have hkeys : ∀ r ∈ combined, ∃ fp, seedKey r = .ok fp := by
    intro r hr
    rcases List.mem_append.1 (hperm.subset hr) with h | h
    · exact hseedOld r h
    · obtain ⟨m, hn, hne⟩ := hnotes r h
      obtain ⟨fp, _, hfp⟩ := forall₂_left htxs r h
      exact ⟨fp, by rw [seedKey_of_note r m hn hne]; exact hfp⟩
  obtain ⟨seen2, hseed2, hmem2⟩ := seedFingerprints_ok combined [] hkeys
  refine ⟨seen2, hseed2, ?_⟩
  rw [processFiles_result]
  apply processRows_all_seen
  intro row hrow hexp
  obtain ⟨fp, hfpmem, hfp⟩ := forall₂_left hfps row (List.mem_filter.2 ⟨hrow, hexp⟩)
  refine ⟨fp, hfp, ?_⟩
  show fp ∈ seen2
  rw [hmem2]
  right
  by_cases hin : fp ∈ seen
  · rcases (hmemOld fp).1 hin with h | ⟨r, hr, hk⟩
    · cases h
    · exact ⟨r, hperm.symm.subset (List.mem_append_left _ hr), hk⟩
  · have hfo : fp ∈ firstOccurrences (fps.filter (· ∉ seen)) := by
      rw [mem_firstOccurrences, List.mem_filter]
      exact ⟨hfpmem, by simpa using hin⟩
    obtain ⟨tx, htx, hk⟩ := forall₂_right htxs fp hfo
    obtain ⟨m, hn, hne⟩ := hnotes tx htx
    exact ⟨tx, hperm.symm.subset (List.mem_append_right _ htx),
      by rw [seedKey_of_note tx m hn hne]; exact hk⟩

end WechatProcessor
